import Mathlib

/-!
Verification of the CKY parser repository (src/grammar.py, src/cky.py).

The Python sources are embedded shallowly:

* A `Rule` is the triple `(lhs, rhs, prob)` produced by `Pcfg.parse_rule`.
  Probabilities (Python floats read from the grammar file) are modelled as
  exact fractions: a `Frac` is a numerator/denominator pair, and every
  float operation the code performs on probabilities (`fsum`, `isclose`,
  comparison with constants) is computed exactly by cross-multiplication,
  which coincides with the real-number comparison whenever the
  denominators are positive, as they are for every float literal.
* `Pcfg.rhs_to_rules` / `Pcfg.lhs_to_rules` are `defaultdict(list)` indices
  built by appending rules in file order; the value list for a key is
  therefore exactly the subsequence of `rules` with that key, in order,
  which is what `List.filter` computes.
* `math.log2` is a transcendental function on floats.  The parsing engine
  uses it only on rule probabilities, and only ever adds and compares the
  results, so it is abstracted as an explicit parameter `lg : Frac → W`
  into an arbitrary linearly ordered additive commutative monoid `W`
  (the reals with `log2` are one instantiation; the theorems hold for
  every `lg`, with the order facts the claims assume about `log2` stated
  as explicit hypotheses where needed).
* Chart scores live in `WithBot W`: `⊥` is the `float("-Inf")`
  initialisation value; addition and comparison on `WithBot` agree with
  IEEE behaviour on these values (no NaNs arise, `lg` being total).
* Python dicts are modelled as association lists without duplicate keys,
  preserving insertion order (`aset` updates in place or appends), and
  Python sets by lists of their elements (only membership is consumed).
-/

/-- Insertion-ordered first occurrences of a list's elements: the key
iteration order of a Python dict populated by repeated assignments. -/
def firstKeys {α : Type} [DecidableEq α] (xs : List α) : List α :=
  xs.foldl (fun acc x => if x ∈ acc then acc else acc ++ [x]) []

theorem mem_foldl_firstKeys {α : Type} [DecidableEq α] (xs : List α) :
    ∀ (acc : List α) (x : α),
      x ∈ xs.foldl (fun acc x => if x ∈ acc then acc else acc ++ [x]) acc ↔
        x ∈ acc ∨ x ∈ xs := by
  induction xs with
  | nil => intro acc x; simp
  | cons y ys ih =>
      intro acc x
      simp only [List.foldl_cons]
      rw [ih]
      by_cases hy : y ∈ acc
      · simp only [if_pos hy, List.mem_cons]
        constructor
        · rintro (h | h)
          · exact Or.inl h
          · exact Or.inr (Or.inr h)
        · rintro (h | h | h)
          · exact Or.inl h
          · exact Or.inl (h ▸ hy)
          · exact Or.inr h
      · simp only [if_neg hy, List.mem_append, List.mem_singleton, List.mem_cons]
        tauto

theorem mem_firstKeys {α : Type} [DecidableEq α] (xs : List α) (x : α) :
    x ∈ firstKeys xs ↔ x ∈ xs := by
  unfold firstKeys; rw [mem_foldl_firstKeys]; simp

/-- An exact binary fraction standing for a Python float: the value
`num / den`.  Genuine float values have `den > 0`; all operations below
compute the exact real arithmetic of the represented values under that
convention. -/
structure Frac where
  num : Int
  den : Nat
deriving DecidableEq, Repr

/-- Exact float addition (`a/b + c/d = (a*d + c*b)/(b*d)`). -/
def Frac.add (a b : Frac) : Frac :=
  ⟨a.num * b.den + b.num * a.den, a.den * b.den⟩

/-- Exact float subtraction. -/
def Frac.sub (a b : Frac) : Frac :=
  ⟨a.num * b.den - b.num * a.den, a.den * b.den⟩

/-- Absolute value. -/
def Frac.absF (a : Frac) : Frac := ⟨|a.num|, a.den⟩

/-- Comparison of represented values by cross-multiplication (exact for
positive denominators). -/
def Frac.leF (a b : Frac) : Bool :=
  decide (a.num * b.den ≤ b.num * a.den)

/-- The larger of two represented values. -/
def Frac.maxF (a b : Frac) : Frac := if a.leF b then b else a

/-- Python's `math.fsum`: the exactly rounded sum of the inputs, which in
the exact model is the plain left-to-right sum. -/
def fsum (qs : List Frac) : Frac := qs.foldl Frac.add ⟨0, 1⟩

/-- Python's `math.isclose(a, b, rel_tol=1e-05)` (with the default
`abs_tol=0.0`): `abs(a-b) <= max(rel_tol * max(abs(a), abs(b)), abs_tol)`;
multiplying by `rel_tol = 1/100000` scales the denominator. -/
def isclose (a b : Frac) : Bool :=
  (a.sub b).absF.leF ⟨(a.absF.maxF b.absF).num, 100000 * (a.absF.maxF b.absF).den⟩

/-- A grammar rule: the triple `(lhs, rhs, prob)` of `Pcfg.parse_rule`. -/
structure Rule where
  lhs : String
  rhs : List String
  prob : Frac
deriving DecidableEq, Repr

/-- The grammar object of `grammar.py`: the full rule list in file order
plus the start symbol.  The two `defaultdict(list)` indices are recovered
below as filters over `rules`. -/
structure Pcfg where
  rules : List Rule
  startsymbol : String
deriving DecidableEq, Repr

/-- The `rhs_to_rules` index: rules whose right-hand side is the given
tuple, in file order (a `defaultdict(list)` lookup; absent keys give `[]`). -/
def Pcfg.rhs_to_rules (g : Pcfg) (rhs : List String) : List Rule :=
  g.rules.filter (fun r => r.rhs = rhs)

/-- The `lhs_to_rules` index, analogous to `rhs_to_rules`. -/
def Pcfg.lhs_to_rules (g : Pcfg) (lhs : String) : List Rule :=
  g.rules.filter (fun r => r.lhs = lhs)

theorem mem_rhs_to_rules {g : Pcfg} {w : List String} {r : Rule} :
    r ∈ g.rhs_to_rules w ↔ r ∈ g.rules ∧ r.rhs = w := by
  simp [Pcfg.rhs_to_rules]

theorem mem_lhs_to_rules {g : Pcfg} {l : String} {r : Rule} :
    r ∈ g.lhs_to_rules l ↔ r ∈ g.rules ∧ r.lhs = l := by
  simp [Pcfg.lhs_to_rules]

/-- Key iteration order of the `lhs_to_rules` dict in `verify_grammar`
(`for i in self.lhs_to_rules`): distinct left-hand sides in first-occurrence
(file) order. -/
def lhsKeys (g : Pcfg) : List String :=
  firstKeys (g.rules.map (fun r => r.lhs))

theorem mem_lhsKeys {g : Pcfg} {l : String} :
    l ∈ lhsKeys g ↔ ∃ r ∈ g.rules, r.lhs = l := by
  unfold lhsKeys
  rw [mem_firstKeys]
  simp [eq_comm]

/-- Python's `str.isupper`: at least one cased character and no cased
character is lowercase (for the ASCII symbols of this repository, cased
means alphabetic). -/
def pyIsUpper (s : String) : Bool :=
  s.data.any (fun c => c.isUpper || c.isLower) && s.data.all (fun c => !c.isLower)

/-- The per-rule shape test of `verify_grammar`:
`(len(rule)==2 and all([i.isupper() for i in rule])) or len(rule)==1`. -/
def ruleShapeOk (r : Rule) : Bool :=
  (r.rhs.length == 2 && r.rhs.all pyIsUpper) || r.rhs.length == 1

/-- The per-lhs probability-sum test of `verify_grammar`:
`isclose(fsum([i for _,_,i in rules]), 1, rel_tol=1e-05)`. -/
def sumOk (g : Pcfg) (l : String) : Bool :=
  isclose (fsum ((g.lhs_to_rules l).map (fun r => r.prob))) ⟨1, 1⟩

/-- The loop body of `verify_grammar` over the remaining lhs keys: per lhs,
first the probability-sum check (early return `"error: sum!=1!"`), then the
shape check of every rule of that lhs (early return
`"error: wrong format!"`); `"confirmation!"` once all keys pass. -/
def verifyGo (g : Pcfg) : List String → String
  | [] => "confirmation!"
  | l :: rest =>
      if ¬ sumOk g l then "error: sum!=1!"
      else if ¬ (g.lhs_to_rules l).all ruleShapeOk then "error: wrong format!"
      else verifyGo g rest

/-- `Pcfg.verify_grammar` from `grammar.py`. -/
def Pcfg.verify_grammar (g : Pcfg) : String :=
  verifyGo g (lhsKeys g)

theorem verifyGo_cons_ok {g : Pcfg} {l : String} (rest : List String)
    (hs : sumOk g l) (hf : (g.lhs_to_rules l).all ruleShapeOk) :
    verifyGo g (l :: rest) = verifyGo g rest := by
  simp [verifyGo, hs, hf]

theorem verifyGo_mem (g : Pcfg) (ks : List String) :
    verifyGo g ks = "confirmation!" ∨ verifyGo g ks = "error: sum!=1!" ∨
      verifyGo g ks = "error: wrong format!" := by
  induction ks with
  | nil => left; rfl
  | cons l rest ih =>
      by_cases hs : sumOk g l
      · by_cases hf : (g.lhs_to_rules l).all ruleShapeOk
        · rw [verifyGo_cons_ok rest hs hf]; exact ih
        · right; right; simp [verifyGo, hs, hf]
      · right; left; simp [verifyGo, hs]

theorem verifyGo_conf_iff (g : Pcfg) (ks : List String) :
    verifyGo g ks = "confirmation!" ↔
      ∀ l ∈ ks, sumOk g l ∧ (g.lhs_to_rules l).all ruleShapeOk := by
  induction ks with
  | nil => simp [verifyGo]
  | cons l rest ih =>
      by_cases hs : sumOk g l
      · by_cases hf : (g.lhs_to_rules l).all ruleShapeOk
        · rw [verifyGo_cons_ok rest hs hf, ih]
          constructor
          · intro h l' hl'
            rcases List.mem_cons.mp hl' with h' | h'
            · exact h' ▸ ⟨hs, hf⟩
            · exact h l' h'
          · intro h l' hl'
            exact h l' (List.mem_cons_of_mem _ hl')
        · have hv : verifyGo g (l :: rest) = "error: wrong format!" := by
            simp [verifyGo, hs, hf]
          rw [hv]
          constructor
          · intro h; exact absurd h (by decide)
          · intro h; exact absurd (h l (List.mem_cons_self l rest)).2 hf
      · have hv : verifyGo g (l :: rest) = "error: sum!=1!" := by
          simp [verifyGo, hs]
        rw [hv]
        constructor
        · intro h; exact absurd h (by decide)
        · intro h; exact absurd (h l (List.mem_cons_self l rest)).1 hs

theorem verifyGo_sum_err (g : Pcfg) (ks : List String)
    (hbad : ∃ l ∈ ks, ¬ sumOk g l)
    (hshape : ∀ l ∈ ks, (g.lhs_to_rules l).all ruleShapeOk) :
    verifyGo g ks = "error: sum!=1!" := by
  induction ks with
  | nil => simp at hbad
  | cons l rest ih =>
      by_cases hs : sumOk g l
      · have hf : (g.lhs_to_rules l).all ruleShapeOk := hshape l (by simp)
        rw [verifyGo_cons_ok rest hs hf]
        apply ih
        · rcases hbad with ⟨l', hl', hbadl⟩
          rcases List.mem_cons.mp hl' with h | h
          · exact absurd hs (h ▸ hbadl)
          · exact ⟨l', h, hbadl⟩
        · intro l' hl'; exact hshape l' (List.mem_cons_of_mem _ hl')
      · simp [verifyGo, hs]

theorem verifyGo_format_err (g : Pcfg) (ks : List String)
    (hsum : ∀ l ∈ ks, sumOk g l)
    (hbad : ∃ l ∈ ks, ¬ (g.lhs_to_rules l).all ruleShapeOk) :
    verifyGo g ks = "error: wrong format!" := by
  induction ks with
  | nil => simp at hbad
  | cons l rest ih =>
      have hs : sumOk g l := hsum l (by simp)
      by_cases hf : (g.lhs_to_rules l).all ruleShapeOk
      · rw [verifyGo_cons_ok rest hs hf]
        apply ih
        · intro l' hl'; exact hsum l' (List.mem_cons_of_mem _ hl')
        · rcases hbad with ⟨l', hl', hbadl⟩
          rcases List.mem_cons.mp hl' with h | h
          · exact absurd hf (h ▸ hbadl)
          · exact ⟨l', h, hbadl⟩
      · simp [verifyGo, hs, hf]

theorem all_rules_shape_iff (g : Pcfg) :
    (∀ l ∈ lhsKeys g, (g.lhs_to_rules l).all ruleShapeOk) ↔
      ∀ r ∈ g.rules, ruleShapeOk r := by
  constructor
  · intro h r hr
    have hl : r.lhs ∈ lhsKeys g := mem_lhsKeys.mpr ⟨r, hr, rfl⟩
    exact List.all_eq_true.mp (h r.lhs hl) r (mem_lhs_to_rules.mpr ⟨hr, rfl⟩)
  · intro h l _
    exact List.all_eq_true.mpr (fun r hr => h r (mem_lhs_to_rules.mp hr).1)

/-- The grammar used in the counterexample to C10 as stated: its single
lhs `A` has a rule that is neither unary-terminal nor
binary-over-uppercase-nonterminals, and its probabilities sum to `1/2`. -/
def gBoth : Pcfg :=
  { rules := [{ lhs := "A", rhs := ["b", "c"], prob := ⟨1, 2⟩ }],
    startsymbol := "S" }

/-- C10 counterexample: `gBoth` contains a rule violating the CNF shape
requirement, yet `verify_grammar` reports the probability-sum failure (the
per-lhs sum check runs first), so the claim's "reports a shape failure when
some rule is neither unary-terminal nor binary-over-two-nonterminals" is
false as stated. -/
theorem C10_counterexample :
    gBoth.verify_grammar = "error: sum!=1!" ∧
      (∃ r ∈ gBoth.rules, ¬ ruleShapeOk r) ∧
      gBoth.verify_grammar ≠ "error: wrong format!" := by
  refine ⟨by decide, ⟨⟨"A", ["b", "c"], ⟨1, 2⟩⟩, by decide, by decide⟩, by decide⟩

/-- C10 (amended): `verify_grammar` returns one of three distinct strings;
it returns `"confirmation!"` iff every lhs's probabilities sum to 1 within
relative tolerance 1e-5 and every rule has a legal CNF shape; when only
probability-sum violations are present it returns `"error: sum!=1!"`, and
when only shape violations are present it returns `"error: wrong format!"`.
(When both kinds are present, the result is decided by the first offending
lhs in insertion order, its sum being checked before its rule shapes.) -/
theorem C10_verify_grammar_classifies (g : Pcfg) :
    (g.verify_grammar = "confirmation!" ∨ g.verify_grammar = "error: sum!=1!" ∨
        g.verify_grammar = "error: wrong format!") ∧
    (g.verify_grammar = "confirmation!" ↔
        (∀ l ∈ lhsKeys g, sumOk g l) ∧ ∀ r ∈ g.rules, ruleShapeOk r) ∧
    ((∃ l ∈ lhsKeys g, ¬ sumOk g l) → (∀ r ∈ g.rules, ruleShapeOk r) →
        g.verify_grammar = "error: sum!=1!") ∧
    ((∀ l ∈ lhsKeys g, sumOk g l) → (∃ r ∈ g.rules, ¬ ruleShapeOk r) →
        g.verify_grammar = "error: wrong format!") := by
  refine ⟨verifyGo_mem g _, ?_, ?_, ?_⟩
  · rw [Pcfg.verify_grammar, verifyGo_conf_iff]
    constructor
    · intro h
      exact ⟨fun l hl => (h l hl).1, (all_rules_shape_iff g).mp (fun l hl => (h l hl).2)⟩
    · rintro ⟨h1, h2⟩ l hl
      exact ⟨h1 l hl, (all_rules_shape_iff g).mpr h2 l hl⟩
  · intro hbad hshape
    exact verifyGo_sum_err g _ hbad ((all_rules_shape_iff g).mpr hshape)
  · intro hsum hbad
    apply verifyGo_format_err g _ hsum
    rcases hbad with ⟨r, hr, hrbad⟩
    refine ⟨r.lhs, mem_lhsKeys.mpr ⟨r, hr, rfl⟩, ?_⟩
    intro hall
    exact hrbad (List.all_eq_true.mp hall r (mem_lhs_to_rules.mpr ⟨hr, rfl⟩))

/-- A well-formed grammar, used to witness `C10_verify_grammar_classifies`. -/
def gGood : Pcfg :=
  { rules := [{ lhs := "S", rhs := ["NP", "VP"], prob := ⟨1, 1⟩ },
              { lhs := "NP", rhs := ["dogs"], prob := ⟨1, 1⟩ },
              { lhs := "VP", rhs := ["bark"], prob := ⟨1, 1⟩ }],
    startsymbol := "S" }

/-- A grammar whose only defect is a probability sum of 0.9. -/
def gSumBad : Pcfg :=
  { rules := [{ lhs := "A", rhs := ["x"], prob := ⟨9, 10⟩ }],
    startsymbol := "A" }

/-- Witness for C10: the amended classification evaluated on concrete
grammars — a valid grammar confirms, a grammar whose only defect is a
probability sum of 0.9 reports the sum failure. -/
theorem C10_verify_grammar_classifies_witness :
    gGood.verify_grammar = "confirmation!" ∧
      gSumBad.verify_grammar = "error: sum!=1!" := by
  constructor
  · exact (C10_verify_grammar_classifies gGood).2.1.mpr ⟨by decide, by decide⟩
  · exact (C10_verify_grammar_classifies gSumBad).2.2.1
      ⟨"A", by decide, by decide⟩ (by decide)

/-- A dynamically typed Python value, covering the shapes relevant to the
chart validators: ints, strings, tuples and dicts (dict entries listed in
insertion order). -/
inductive PyVal where
  | int (n : Int)
  | str (s : String)
  | tup (xs : List PyVal)
  | dict (kvs : List (PyVal × PyVal))

/-- Python's `len`, defined for strings, tuples and dicts; `none` models
the `TypeError` raised on unsized objects such as ints. -/
def pyLen : PyVal → Option Nat
  | .str s => some s.length
  | .tup xs => some xs.length
  | .dict kvs => some kvs.length
  | .int _ => none

/-- Outcome of `check_table_format`: a returned boolean together with the
diagnostic lines written to stderr (the formatted payload of a message is
omitted), or `exc` for an uncaught exception. -/
inductive CTF where
  | ret (b : Bool) (msgs : List String)
  | exc
deriving DecidableEq, Repr

/-- Subscripting `v[i]` for the non-tuple values the key check can reach:
indexing a string yields a one-character string, indexing a dict looks the
integer up among its keys (`none` models the raised `KeyError`/`TypeError`). -/
def pySub : PyVal → Nat → Option PyVal
  | .str s, i => if h : i < s.length then some (.str (String.singleton (s.data.get ⟨i, h⟩))) else none
  | .dict kvs, i => (kvs.find? (fun kv => match kv.1 with | .int n => n == (i : Int) | _ => false)).map (fun kv => kv.2)
  | _, _ => none

/-- Is the value an int? (`isinstance(v, int)`). -/
def pyIsInt : PyVal → Bool
  | .int _ => true
  | _ => false

/-- The innermost loop of `check_table_format`: each backpointer `bp` of a
split must be a 3-tuple `(symbol, int, int)`. -/
def checkBp (bp : PyVal) : Option CTF :=
  match bp with
  | .tup [a, b, c] =>
      if (match a with | .str _ => true | _ => false) && pyIsInt b && pyIsInt c then none
      else some (.ret false ["Values of the inner dictionary (for each span and nonterminal) must be a pair of backpointers. Backpointer has incorrect type.\n"])
  | .tup _ => some (.ret false ["Values of the inner dictionary (for each span and nonterminal) must be a pair of backpointers. Backpointer has length != 3.\n"])
  | _ => some (.ret false ["Values of the inner dictionary (for each span and nonterminal) must be a pair of backpointers. Backpointer has length != 3.\n"])

def firstFail {α : Type} (f : α → Option CTF) : List α → Option CTF
  | [] => none
  | a :: rest =>
      match f a with
      | some r => some r
      | none => firstFail f rest

/-- The check of one `(nt, bps)` entry of a per-span inner dict. -/
def checkNt (kv : PyVal × PyVal) : Option CTF :=
  match kv.1 with
  | .str _ =>
      match kv.2 with
      | .str _ => none
      | .tup bps =>
          if bps.length ≠ 2 then
            some (.ret false ["Values of the inner dictionary (for each span and nonterminal) must be a pair of backpointers. Found more than two backpointers.\n"])
          else firstFail checkBp bps
      | _ => some (.ret false ["Values of the inner dictionary (for each span and nonterminal) must be a pair of backpointers. Incorrect type.\n"])
  | _ => some (.ret false ["Keys of the inner dictionary (for each span) must be strings representing nonterminals.\n"])

/-- The check of one `(split, value)` entry of the outer table.  The key
test transcribes the buggy Python condition
`not isinstance(split, tuple) and len(split) == 2 and
isinstance(split[0], int) and isinstance(split[1], int)` with Python's
short-circuit evaluation: a tuple key short-circuits the whole condition
to false (its arity and element types are never inspected), while a
non-tuple key is passed to `len`, which raises on unsized objects. -/
def checkSplit (kv : PyVal × PyVal) : Option CTF :=
  match kv.1 with
  | .tup _ => checkSplitValue kv
  | k =>
      match pyLen k with
      | none => some .exc
      | some L =>
          if L = 2 then
            match pySub k 0 with
            | none => some .exc
            | some e0 =>
                if pyIsInt e0 then
                  match pySub k 1 with
                  | none => some .exc
                  | some e1 =>
                      if pyIsInt e1 then
                        some (.ret false ["Keys of the backpointer table must be tuples (i,j) representing spans.\n"])
                      else checkSplitValue kv
                else checkSplitValue kv
          else checkSplitValue kv
where
  /-- The remaining checks of the loop body: the per-span value must be a
  dict, whose entries are then checked one by one. -/
  checkSplitValue (kv : PyVal × PyVal) : Option CTF :=
    match kv.2 with
    | .dict inner => firstFail checkNt inner
    | _ => some (.ret false ["Value of backpointer table (for each span) is not a dict.\n"])

/-- `check_table_format` from `cky.py`. -/
def check_table_format (table : PyVal) : CTF :=
  match table with
  | .dict kvs =>
      match firstFail checkSplit kvs with
      | some r => r
      | none => .ret true []
  | _ => .ret false ["Backpointer table is not a dict.\n"]

/-- C9 evaluation: a table whose only span key is the 3-tuple `(0,1,2)`
(not a pair of ints) is accepted with `True` and no diagnostic, because the
misplaced `not` in the key test short-circuits on any tuple key; and a
table with the unsized key `5` raises `TypeError` inside `len(split)`.
Both contradict the claim that such tables yield `False` plus a diagnostic
and that no malformed input raises. -/
theorem C9_check_table_format_violations :
    check_table_format (.dict [(.tup [.int 0, .int 1, .int 2], .dict [])]) = .ret true [] ∧
      check_table_format (.dict [(.int 5, .dict [])]) = .exc := by
  constructor <;> rfl

/-- Lookup in a Python dict modelled as an insertion-ordered association
list (keys unique by construction). -/
def alookup {α : Type} : List (String × α) → String → Option α
  | [], _ => none
  | (k, v) :: rest, l => if k = l then some v else alookup rest l

/-- Assignment `d[k] = v` on a Python dict: updates the value in place if
the key is present (keeping its position), otherwise appends the new key. -/
def aset {α : Type} : List (String × α) → String → α → List (String × α)
  | [], k, v => [(k, v)]
  | (k2, v2) :: rest, k, v => if k2 = k then (k, v) :: rest else (k2, v2) :: aset rest k v

/-- The key iteration order of the dict. -/
def akeys {α : Type} (c : List (String × α)) : List String := c.map Prod.fst

/-- Left-hand sides of the unary rules matching a token:
`set([j for j,_,_ in self.grammar.rhs_to_rules[(i,)]])` (a Python set is
modelled by the list of its elements; only membership is consumed). -/
def initLhs (g : Pcfg) (t : String) : List String :=
  (g.rhs_to_rules [t]).map (fun r => r.lhs)

/-- The recognition chart `pi` of `is_in_language`, as a function of the
span, defined by recursion on a fuel bounding the span length.  The Python
triple loop fills cells in order of increasing span length and each cell
reads only cells of strictly shorter spans (`(i,k)` and `(k,j)` with
`i < k < j`), so the loop computes exactly this recurrence; the union
accumulated over split points `k` becomes a list append (membership
equivalent).  Spans the loop never creates (length 0, or ends beyond the
sentence) are the empty set. -/
def piF (g : Pcfg) (toks : List String) : Nat → Nat × Nat → List String
  | 0, _ => []
  | fuel + 1, sp =>
      if sp.2 = sp.1 + 1 then
        match toks.get? sp.1 with
        | some t => initLhs g t
        | none => []
      else if sp.1 + 2 ≤ sp.2 ∧ sp.2 ≤ toks.length then
        (List.range' (sp.1 + 1) (sp.2 - sp.1 - 1)).foldl
          (fun acc k =>
            acc ++ (piF g toks fuel (sp.1, k)).flatMap
              (fun b => (piF g toks fuel (k, sp.2)).flatMap
                (fun c => (g.rhs_to_rules [b, c]).map (fun r => r.lhs))))
          []
      else []

/-- The recognition chart cell for span `(i, j)`. -/
def piAt (g : Pcfg) (toks : List String) (i j : Nat) : List String :=
  piF g toks (j - i) (i, j)

/-- `CkyParser.is_in_language` from `cky.py`.  On the empty sentence the
Python code builds an empty chart list `pi` and then evaluates
`pi[0][-1]`, raising `IndexError`; this is modelled by `none`.  Otherwise
it returns whether the start symbol is in the root cell `pi[0][n]`. -/
def CkyParser.is_in_language (g : Pcfg) (tokens : List String) : Option Bool :=
  if tokens.length = 0 then none
  else some (decide (g.startsymbol ∈ piAt g tokens 0 tokens.length))

/-- A backpointer-chart cell value: a terminal leaf marker, the sentinel
`((0,0,0),(0,0,0))` (a pair of int triples, distinguishable at runtime
from any pair of symbol-labelled triples), or a binary split
`((B,i,k),(C,k,j))`. -/
inductive BP where
  | leaf (t : String)
  | sent
  | split (b1 b2 : String × Nat × Nat)
deriving DecidableEq, Repr

/-- The combined base-case cell for a length-1 span over token `t`: for
every unary rule `(A, (t,), p)` the code sets `tb[(i,i+1)][A] = t` and
`pb[(i,i+1)][A] = log2(p)`.  The Python code iterates a *set* of `(A, p)`
pairs, whose order is unspecified (string hashing is salted); the model
iterates the rule list in file order, so a later duplicate rule overwrites
an earlier one (last write wins). -/
def baseCell {W : Type} [LinearOrderedAddCommMonoid W] (lg : Frac → W) (g : Pcfg)
    (t : String) : List (String × (WithBot W × BP)) :=
  (g.rhs_to_rules [t]).foldl
    (fun c r => aset c r.lhs ((lg r.prob : WithBot W), BP.leaf t)) []

/-- The candidate enumeration of the inductive step for span `(i, j)`:
split points `k` in increasing order, then keys `x` of `pb[(i,k)]` and `y`
of `pb[(k,j)]` in chart insertion order, then the rules of
`rhs_to_rules[(x,y)]` in file order.  Each candidate carries the lhs, the
score `log2(p) + pb[(i,k)][x] + pb[(k,j)][y]` and the backpointer
`((x,i,k),(y,k,j))`.  The same enumeration, projected to left-hand sides,
is the list `L` whose members get initialised to `(-inf, sentinel)`. -/
def candList {W : Type} [LinearOrderedAddCommMonoid W] (lg : Frac → W) (g : Pcfg)
    (ch : Nat × Nat → List (String × (WithBot W × BP))) (i j : Nat) :
    List (String × (WithBot W × BP)) :=
  (List.range' (i + 1) (j - i - 1)).flatMap (fun k =>
    (ch (i, k)).flatMap (fun xe =>
      (ch (k, j)).flatMap (fun ye =>
        (g.rhs_to_rules [xe.1, ye.1]).map (fun r =>
          (r.lhs,
           ((lg r.prob : WithBot W) + xe.2.1 + ye.2.1,
            BP.split (xe.1, i, k) (ye.1, k, j)))))))

/-- One update of the inner loop: `if prob > pb[(i,j)][l]:` replace score
and backpointer, strictly-greater only.  The `none` branch is unreachable
when the cell was initialised from the same enumeration (every candidate's
lhs is a member of `L`); in Python a missing key would raise `KeyError`. -/
def updCell {W : Type} [LinearOrderedAddCommMonoid W]
    (c : List (String × (WithBot W × BP)))
    (e : String × (WithBot W × BP)) : List (String × (WithBot W × BP)) :=
  match alookup c e.1 with
  | some cur => if cur.1 < e.2.1 then aset c e.1 e.2 else c
  | none => c

/-- The inductive-step cell for span `(i, j)`: initialise every lhs of the
enumeration to `(-inf, sentinel)`, then fold the strict-improvement update
over the candidates in enumeration order. -/
def buildCell {W : Type} [LinearOrderedAddCommMonoid W] (lg : Frac → W) (g : Pcfg)
    (ch : Nat × Nat → List (String × (WithBot W × BP))) (i j : Nat) :
    List (String × (WithBot W × BP)) :=
  (candList lg g ch i j).foldl updCell
    ((candList lg g ch i j).foldl (fun c e => aset c e.1 ((⊥ : WithBot W), BP.sent)) [])

/-- The combined Viterbi chart (scores paired with backpointers; the two
Python dicts share their keys, being always written together), as a
function of the span, by recursion on a fuel bounding the span length.
As with `piF`, the Python loop fills spans by increasing length and each
cell reads only strictly shorter spans, so it computes this recurrence. -/
def chartF {W : Type} [LinearOrderedAddCommMonoid W] (lg : Frac → W) (g : Pcfg)
    (toks : List String) : Nat → Nat × Nat → List (String × (WithBot W × BP))
  | 0, _ => []
  | fuel + 1, sp =>
      if sp.2 = sp.1 + 1 then
        match toks.get? sp.1 with
        | some t => baseCell lg g t
        | none => []
      else if sp.1 + 2 ≤ sp.2 ∧ sp.2 ≤ toks.length then
        buildCell lg g (fun sp2 => chartF lg g toks fuel sp2) sp.1 sp.2
      else []

/-- The combined Viterbi cell for span `(i, j)`. -/
def cellAt {W : Type} [LinearOrderedAddCommMonoid W] (lg : Frac → W) (g : Pcfg)
    (toks : List String) (i j : Nat) : List (String × (WithBot W × BP)) :=
  chartF lg g toks (j - i) (i, j)

/-- The span keys of the returned charts in insertion order: all length-1
spans left to right, then all longer spans by increasing length. -/
def spanList (n : Nat) : List (Nat × Nat) :=
  (List.range n).map (fun i => (i, i + 1)) ++
    (List.range' 2 (n - 1)).flatMap
      (fun l => (List.range (n - l + 1)).map (fun i => (i, i + l)))

/-- `CkyParser.parse_with_backpointers` from `cky.py`: returns the
backpointer chart `tb` and the probability chart `pb` as span-keyed
dicts of symbol-keyed dicts. -/
def CkyParser.parse_with_backpointers {W : Type} [LinearOrderedAddCommMonoid W]
    (lg : Frac → W) (g : Pcfg) (tokens : List String) :
    List ((Nat × Nat) × List (String × BP)) ×
      List ((Nat × Nat) × List (String × WithBot W)) :=
  ((spanList tokens.length).map (fun sp =>
      (sp, (cellAt lg g tokens sp.1 sp.2).map (fun e => (e.1, e.2.2)))),
   (spanList tokens.length).map (fun sp =>
      (sp, (cellAt lg g tokens sp.1 sp.2).map (fun e => (e.1, e.2.1)))))

/-- Two-level chart lookup `chart[(i,j)][nt]`, `none` when either key is
absent (a `KeyError` in Python). -/
def clookup {β : Type} (ch : List ((Nat × Nat) × List (String × β)))
    (sp : Nat × Nat) (l : String) : Option β :=
  match ch.find? (fun e => decide (e.1 = sp)) with
  | some e => alookup e.2 l
  | none => none

/-- A parse tree as returned by `get_tree`: `(nt, terminal)` leaves and
`(nt, left, right)` internal nodes, as a tagged union. -/
inductive PTree where
  | leaf (nt : String) (t : String)
  | node (nt : String) (left right : PTree)
deriving DecidableEq, Repr

/-- The leaf sequence of a tree, left to right. -/
def PTree.leaves : PTree → List String
  | .leaf _ t => [t]
  | .node _ l r => l.leaves ++ r.leaves

/-- `get_tree` from `cky.py`.  The extra fuel argument bounds the
recursion depth (on arbitrary charts the Python recursion need not
terminate); `none` models an uncaught exception.  A missing
`chart[(i,j)][nt]` raises `KeyError`.  The split case recurses on
`(i, x[0][2], x[0][0])` and `(x[0][2], j, x[1][0])`, ignoring the other
backpointer components.  The sentinel is a pair of int triples, on which
the recursive call would look up an int key and fail with `KeyError`. -/
def get_tree (fuel : Nat) (chart : List ((Nat × Nat) × List (String × BP)))
    (i j : Nat) (nt : String) : Option PTree :=
  match fuel with
  | 0 => none
  | fuel + 1 =>
      match clookup chart (i, j) nt with
      | some (BP.leaf t) => some (.leaf nt t)
      | some (BP.split b1 b2) =>
          match get_tree fuel chart i b1.2.2 b1.1, get_tree fuel chart b1.2.2 j b2.1 with
          | some t1, some t2 => some (.node nt t1 t2)
          | _, _ => none
      | some BP.sent => none
      | none => none

/-- C6 evaluation: on the empty token sequence
`parse_with_backpointers` does return a pair of span-keyless charts, but
`is_in_language` raises `IndexError` (modelled `none`) instead of
returning `False`: `pi` is the empty list and `pi[0][-1]` is evaluated. -/
theorem C6_empty_input {W : Type} [LinearOrderedAddCommMonoid W]
    (lg : Frac → W) (g : Pcfg) :
    CkyParser.is_in_language g [] = none ∧
      CkyParser.parse_with_backpointers lg g [] = ([], []) :=
  ⟨rfl, rfl⟩

/-- The key list of the `rhs_to_rules` defaultdict right after `Pcfg.__init__`:
the distinct right-hand sides, in first-occurrence order. -/
def rhsKeys0 (g : Pcfg) : List (List String) :=
  firstKeys (g.rules.map (fun r => r.rhs))

/-- The `(i, j, k)` triples of the inductive chart loops, in loop order:
span length 2..n, start `i`, split point `k` in `(i, j)`. -/
def splitTriples (n : Nat) : List (Nat × Nat × Nat) :=
  (List.range' 2 (n - 1)).flatMap (fun l =>
    (List.range (n - l + 1)).flatMap (fun i =>
      (List.range' (i + 1) (l - 1)).map (fun k => (i, i + l, k))))

/-- Every rhs key looked up in `rhs_to_rules` during `is_in_language`:
`(token,)` for each token (line 96), and `(b, c)` for every `b` in
`pi[i][k]` and `c` in `pi[k][j]` over all spans and split points
(line 104).  Since `rhs_to_rules` is a `defaultdict(list)`, each of these
lookups inserts the key (with value `[]`) when it is absent. -/
def rhsKeysAfter_is_in_language (g : Pcfg) (toks : List String) : List (List String) :=
  rhsKeys0 g ++
    (toks.map (fun t => [t]) ++
      (splitTriples toks.length).flatMap (fun t =>
        (piAt g toks t.1 t.2.2).flatMap (fun b =>
          (piAt g toks t.2.2 t.2.1).map (fun c => [b, c]))))

/-- Every rhs key looked up during `parse_with_backpointers`: `(token,)`
for each token (line 114) and `(x, y)` for every pair of keys of
`pb[(i,k)]` and `pb[(k,j)]` (lines 128 and 135). -/
def rhsKeysAfter_parse_with_backpointers {W : Type} [LinearOrderedAddCommMonoid W]
    (lg : Frac → W) (g : Pcfg) (toks : List String) : List (List String) :=
  rhsKeys0 g ++
    (toks.map (fun t => [t]) ++
      (splitTriples toks.length).flatMap (fun t =>
        (akeys (cellAt lg g toks t.1 t.2.2)).flatMap (fun x =>
          (akeys (cellAt lg g toks t.2.2 t.2.1)).map (fun y => [x, y]))))

/-- The grammar of the C7 counterexample: one rule `S -> "a" ; 1`. -/
def gDelta : Pcfg :=
  { rules := [{ lhs := "S", rhs := ["a"], prob := ⟨1, 1⟩ }],
    startsymbol := "S" }

/-- C7 counterexample: running `is_in_language(["b"])` completes (returning
`False`), yet the key `("b",)` has been inserted into `rhs_to_rules` by the
`defaultdict` lookup of a token with no unary rule, so the key set of
`rhs_to_rules` after the call differs from the key set before it. -/
theorem C7_counterexample :
    CkyParser.is_in_language gDelta ["b"] = some false ∧
      ["b"] ∈ rhsKeysAfter_is_in_language gDelta ["b"] ∧
      ["b"] ∉ rhsKeys0 gDelta := by
  refine ⟨rfl, by decide, by decide⟩

/-- C7 (amended): the engines never delete a `rhs_to_rules` key (the
original key set is preserved), and every key outside the original key set
— in particular every key freshly inserted by a `defaultdict` lookup —
maps to the empty rule list, so the results of all lookups are unchanged;
`lhs_to_rules` and the start symbol are never touched. -/
theorem C7_rhs_keys_grow_monotonically {W : Type} [LinearOrderedAddCommMonoid W]
    (lg : Frac → W) (g : Pcfg) (toks : List String) :
    (∀ w ∈ rhsKeys0 g, w ∈ rhsKeysAfter_is_in_language g toks) ∧
    (∀ w ∈ rhsKeys0 g, w ∈ rhsKeysAfter_parse_with_backpointers lg g toks) ∧
    (∀ w : List String, w ∉ rhsKeys0 g → g.rhs_to_rules w = []) := by
  refine ⟨fun w hw => List.mem_append_left _ hw,
          fun w hw => List.mem_append_left _ hw, ?_⟩
  intro w hw
  rw [Pcfg.rhs_to_rules, List.filter_eq_nil_iff]
  intro r hr hrw
  exact hw ((mem_firstKeys _ _).mpr (List.mem_map.mpr ⟨r, hr, by simpa using hrw⟩))

/-- The token span `tokens[i:j]`. -/
def tokSlice (toks : List String) (i j : Nat) : List String :=
  (toks.drop i).take (j - i)

theorem tokSlice_length {toks : List String} {i j : Nat} (hj : j ≤ toks.length) :
    (tokSlice toks i j).length = j - i := by
  simp only [tokSlice, List.length_take, List.length_drop]
  omega

theorem tokSlice_all (toks : List String) : tokSlice toks 0 toks.length = toks := by
  simp [tokSlice]

theorem tokSlice_singleton {toks : List String} {i : Nat} (hi : i < toks.length) :
    tokSlice toks i (i + 1) = [toks[i]] := by
  simp only [tokSlice, Nat.add_sub_cancel_left]
  rw [List.drop_eq_getElem_cons hi]
  rfl

theorem tokSlice_append {toks : List String} {i k j : Nat}
    (hik : i ≤ k) (hkj : k ≤ j) :
    tokSlice toks i k ++ tokSlice toks k j = tokSlice toks i j := by
  unfold tokSlice
  have hd : toks.drop k = (toks.drop i).drop (k - i) := by
    rw [List.drop_drop]
    congr 1
    omega
  rw [hd]
  have : j - i = (k - i) + (j - k) := by omega
  rw [this, List.take_add]

theorem tokSlice_split {toks : List String} {i j : Nat} {u v : List String}
    (h : u ++ v = tokSlice toks i j) (hu : u ≠ []) (hv : v ≠ [])
    (hj : j ≤ toks.length) :
    i < i + u.length ∧ i + u.length < j ∧
      u = tokSlice toks i (i + u.length) ∧ v = tokSlice toks (i + u.length) j := by
  have hlen : u.length + v.length = j - i := by
    have := congrArg List.length h
    simpa [tokSlice_length hj] using this
  have hu1 : 1 ≤ u.length := List.length_pos.mpr hu
  have hv1 : 1 ≤ v.length := List.length_pos.mpr hv
  refine ⟨by omega, by omega, ?_, ?_⟩
  · unfold tokSlice at h ⊢
    rw [show i + u.length - i = u.length from by omega]
    refine Eq.symm ?_
    calc (toks.drop i).take u.length
        = ((toks.drop i).take (j - i)).take u.length := by
          rw [List.take_take, show min u.length (j - i) = u.length from by omega]
      _ = (u ++ v).take u.length := by rw [← h]
      _ = u := List.take_left u v
  · unfold tokSlice at h ⊢
    refine Eq.symm ?_
    calc (toks.drop (i + u.length)).take (j - (i + u.length))
        = ((toks.drop i).drop u.length).take (j - i - u.length) := by
          rw [List.drop_drop]
          congr 1
          omega
      _ = ((toks.drop i).take (j - i)).drop u.length := by rw [List.drop_take]
      _ = (u ++ v).drop u.length := by rw [← h]
      _ = v := List.drop_left u v

/-- A CNF derivation of a token sequence from a nonterminal, using only
the shapes of the grammar's rules: a unary rule derives its literal
right-hand-side token, a binary rule concatenates derivations of its two
right-hand-side symbols. -/
inductive Derives (g : Pcfg) : String → List String → Prop where
  | unary (r : Rule) (hr : r ∈ g.rules) (t : String) (h : r.rhs = [t]) :
      Derives g r.lhs [t]
  | binary (r : Rule) (hr : r ∈ g.rules) (x y : String) (u v : List String)
      (h : r.rhs = [x, y]) (dx : Derives g x u) (dy : Derives g y v) :
      Derives g r.lhs (u ++ v)

/-- A CNF derivation together with its score: the sum, over the rules
used, of `lg` of the rule's probability (with `lg = log2`, the claims'
"sum of log2 of the probabilities of the rules used"), associated the way
the parser accumulates it. -/
inductive DerivW {W : Type} [LinearOrderedAddCommMonoid W] (lg : Frac → W)
    (g : Pcfg) : String → List String → W → Prop where
  | unary (r : Rule) (hr : r ∈ g.rules) (t : String) (h : r.rhs = [t]) :
      DerivW lg g r.lhs [t] (lg r.prob)
  | binary (r : Rule) (hr : r ∈ g.rules) (x y : String) (u v : List String)
      (wx wy : W) (h : r.rhs = [x, y])
      (dx : DerivW lg g x u wx) (dy : DerivW lg g y v wy) :
      DerivW lg g r.lhs (u ++ v) (lg r.prob + wx + wy)

theorem derivW_sent_ne_nil {W : Type} [LinearOrderedAddCommMonoid W] {lg : Frac → W}
    {g : Pcfg} {A : String} {s : List String} {w : W}
    (d : DerivW lg g A s w) : s ≠ [] := by
  induction d with
  | unary r hr t h => simp
  | binary r hr x y u v wx wy h dx dy ihx ihy => simp [ihx]

theorem derives_sent_ne_nil {g : Pcfg} {A : String} {s : List String}
    (d : Derives g A s) : s ≠ [] := by
  induction d with
  | unary r hr t h => simp
  | binary r hr x y u v h dx dy ihx ihy => simp [ihx]

theorem derivW_of_derives {W : Type} [LinearOrderedAddCommMonoid W] (lg : Frac → W)
    {g : Pcfg} {A : String} {s : List String} (d : Derives g A s) :
    ∃ w : W, DerivW lg g A s w := by
  induction d with
  | unary r hr t h => exact ⟨lg r.prob, DerivW.unary r hr t h⟩
  | binary r hr x y u v h dx dy ihx ihy =>
      obtain ⟨wx, hx⟩ := ihx
      obtain ⟨wy, hy⟩ := ihy
      exact ⟨lg r.prob + wx + wy, DerivW.binary r hr x y u v wx wy h hx hy⟩

theorem derives_of_derivW {W : Type} [LinearOrderedAddCommMonoid W] {lg : Frac → W}
    {g : Pcfg} {A : String} {s : List String} {w : W}
    (d : DerivW lg g A s w) : Derives g A s := by
  induction d with
  | unary r hr t h => exact Derives.unary r hr t h
  | binary r hr x y u v wx wy h dx dy ihx ihy =>
      exact Derives.binary r hr x y u v h ihx ihy

theorem derivW_singleton {W : Type} [LinearOrderedAddCommMonoid W] {lg : Frac → W}
    {g : Pcfg} {A t : String} {s : List String} {w : W} (d : DerivW lg g A s w)
    (hs : s = [t]) :
    ∃ r ∈ g.rules, r.lhs = A ∧ r.rhs = [t] ∧ w = lg r.prob := by
  cases d with
  | unary r hr t2 h =>
      obtain rfl : t2 = t := by simpa using hs
      exact ⟨r, hr, rfl, h, rfl⟩
  | binary r hr x y u v wx wy h dx dy =>
      exfalso
      have hu := derivW_sent_ne_nil dx
      have hv := derivW_sent_ne_nil dy
      have : u.length + v.length = 1 := by
        have := congrArg List.length hs
        simpa using this
      have := List.length_pos.mpr hu
      have := List.length_pos.mpr hv
      omega

theorem derivW_long {W : Type} [LinearOrderedAddCommMonoid W] {lg : Frac → W}
    {g : Pcfg} {A : String} {s : List String} {w : W}
    (hlen : 2 ≤ s.length) (d : DerivW lg g A s w) :
    ∃ r ∈ g.rules, ∃ x y u v wx wy, r.lhs = A ∧ r.rhs = [x, y] ∧
      s = u ++ v ∧ u ≠ [] ∧ v ≠ [] ∧
      DerivW lg g x u wx ∧ DerivW lg g y v wy ∧ w = lg r.prob + wx + wy := by
  cases d with
  | unary r hr t h => simp at hlen
  | binary r hr x y u v wx wy h dx dy =>
      exact ⟨r, hr, x, y, u, v, wx, wy, rfl, h, rfl, derivW_sent_ne_nil dx, derivW_sent_ne_nil dy, dx, dy, rfl⟩

theorem derives_singleton {g : Pcfg} {A t : String} {s : List String}
    (d : Derives g A s) (hs : s = [t]) :
    ∃ r ∈ g.rules, r.lhs = A ∧ r.rhs = [t] := by
  cases d with
  | unary r hr t2 h =>
      obtain rfl : t2 = t := by simpa using hs
      exact ⟨r, hr, rfl, h⟩
  | binary r hr x y u v h dx dy =>
      exfalso
      have hu := derives_sent_ne_nil dx
      have hv := derives_sent_ne_nil dy
      have : u.length + v.length = 1 := by
        have := congrArg List.length hs
        simpa using this
      have := List.length_pos.mpr hu
      have := List.length_pos.mpr hv
      omega

theorem derives_long {g : Pcfg} {A : String} {s : List String}
    (hlen : 2 ≤ s.length) (d : Derives g A s) :
    ∃ r ∈ g.rules, ∃ x y u v, r.lhs = A ∧ r.rhs = [x, y] ∧
      s = u ++ v ∧ u ≠ [] ∧ v ≠ [] ∧ Derives g x u ∧ Derives g y v := by
  cases d with
  | unary r hr t h => simp at hlen
  | binary r hr x y u v h dx dy =>
      exact ⟨r, hr, x, y, u, v, rfl, h, rfl, derives_sent_ne_nil dx, derives_sent_ne_nil dy, dx, dy⟩


theorem akeys_nil {α : Type} : akeys ([] : List (String × α)) = [] := rfl

theorem akeys_cons {α : Type} (e : String × α) (c : List (String × α)) :
    akeys (e :: c) = e.1 :: akeys c := rfl

theorem aset_nil {α : Type} (k : String) (v : α) : aset [] k v = [(k, v)] := rfl

theorem aset_cons_pos {α : Type} (e : String × α) (c : List (String × α))
    (k : String) (v : α) (h : e.1 = k) : aset (e :: c) k v = (k, v) :: c := by
  cases e; simp only [aset]; rw [if_pos h]

theorem aset_cons_neg {α : Type} (e : String × α) (c : List (String × α))
    (k : String) (v : α) (h : ¬ e.1 = k) : aset (e :: c) k v = e :: aset c k v := by
  cases e; simp only [aset]; rw [if_neg h]

theorem alookup_nil {α : Type} (l : String) : alookup ([] : List (String × α)) l = none := rfl

theorem alookup_cons {α : Type} (e : String × α) (c : List (String × α)) (l : String) :
    alookup (e :: c) l = if e.1 = l then some e.2 else alookup c l := by
  cases e; rfl

theorem alookup_aset {α : Type} (c : List (String × α)) (k : String) (v : α)
    (l : String) :
    alookup (aset c k v) l = if k = l then some v else alookup c l := by
  induction c with
  | nil => rw [aset_nil, alookup_cons, alookup_nil]
  | cons e rest ih =>
      by_cases hk : e.1 = k
      · rw [aset_cons_pos e rest k v hk, alookup_cons, alookup_cons]
        by_cases hl : k = l
        · rw [if_pos hl, if_pos hl]
        · rw [if_neg hl, if_neg hl, if_neg (show ¬ e.1 = l from fun h => hl (hk ▸ h))]
  -- the branch where the key sits deeper in the list
      · rw [aset_cons_neg e rest k v hk, alookup_cons, alookup_cons, ih]
        by_cases hl : e.1 = l
        · rw [if_pos hl, if_neg (show ¬ k = l from fun h => hk (hl ▸ h ▸ rfl)), if_pos hl]
        · rw [if_neg hl, if_neg hl]

theorem mem_akeys_aset {α : Type} (c : List (String × α)) (k : String) (v : α)
    (l : String) :
    l ∈ akeys (aset c k v) ↔ l = k ∨ l ∈ akeys c := by
  induction c with
  | nil => simp [aset_nil, akeys_cons, akeys_nil]
  | cons e rest ih =>
      by_cases hk : e.1 = k
      · rw [aset_cons_pos e rest k v hk, akeys_cons, akeys_cons, hk]
        simp only [List.mem_cons]
        tauto
      · rw [aset_cons_neg e rest k v hk, akeys_cons, akeys_cons]
        simp only [List.mem_cons, ih]
        tauto

theorem akeys_aset_mem {α : Type} (c : List (String × α)) (k : String) (v : α)
    (hk : k ∈ akeys c) : akeys (aset c k v) = akeys c := by
  induction c with
  | nil => simp [akeys_nil] at hk
  | cons e rest ih =>
      by_cases he : e.1 = k
      · rw [aset_cons_pos e rest k v he, akeys_cons, akeys_cons, he]
      · have hk2 : k ∈ akeys rest := by
          rw [akeys_cons] at hk
          rcases List.mem_cons.mp hk with h | h
          · exact absurd h.symm he
          · exact h
        rw [aset_cons_neg e rest k v he, akeys_cons, akeys_cons, ih hk2]

theorem akeys_aset_not_mem {α : Type} (c : List (String × α)) (k : String) (v : α)
    (hk : k ∉ akeys c) : akeys (aset c k v) = akeys c ++ [k] := by
  induction c with
  | nil => rw [aset_nil, akeys_cons, akeys_nil]; rfl
  | cons e rest ih =>
      have he : ¬ e.1 = k := by
        intro h
        exact hk (by rw [akeys_cons, h]; exact List.mem_cons_self _ _)
      have hk2 : k ∉ akeys rest := by
        intro h
        exact hk (by rw [akeys_cons]; exact List.mem_cons_of_mem _ h)
      rw [aset_cons_neg e rest k v he, akeys_cons, akeys_cons, ih hk2]
      rfl

theorem mem_akeys_iff_lookup {α : Type} (c : List (String × α)) (l : String) :
    l ∈ akeys c ↔ ∃ v, alookup c l = some v := by
  induction c with
  | nil => simp [akeys_nil, alookup_nil]
  | cons e rest ih =>
      rw [akeys_cons, alookup_cons]
      by_cases he : e.1 = l
      · simp [he]
      · rw [if_neg he]
        simp only [List.mem_cons, ih]
        constructor
        · rintro (h | h)
          · exact absurd h.symm he
          · exact h
        · exact Or.inr

theorem alookup_mem {α : Type} (c : List (String × α)) (l : String) (v : α)
    (h : alookup c l = some v) : (l, v) ∈ c := by
  induction c with
  | nil => simp [alookup_nil] at h
  | cons e rest ih =>
      rw [alookup_cons] at h
      by_cases he : e.1 = l
      · rw [if_pos he] at h
        obtain rfl : e.2 = v := by injection h
        have heq : (l, e.2) = e := Prod.ext he.symm rfl
        rw [heq]
        exact List.mem_cons_self e rest
      · rw [if_neg he] at h
        exact List.mem_cons_of_mem _ (ih h)

theorem mem_alookup {α : Type} (c : List (String × α)) (l : String) (v : α)
    (hnd : (akeys c).Nodup) (h : (l, v) ∈ c) : alookup c l = some v := by
  induction c with
  | nil => simp at h
  | cons e rest ih =>
      rw [akeys_cons, List.nodup_cons] at hnd
      rw [alookup_cons]
      rcases List.mem_cons.mp h with h1 | h1
      · rw [if_pos (congrArg Prod.fst h1.symm), ← h1]
      · have he : ¬ e.1 = l := by
          intro hel
          exact hnd.1 (hel ▸ List.mem_map.mpr ⟨(l, v), h1, rfl⟩)
        rw [if_neg he]
        exact ih hnd.2 h1

theorem nodup_akeys_aset {α : Type} (c : List (String × α)) (k : String) (v : α)
    (hnd : (akeys c).Nodup) : (akeys (aset c k v)).Nodup := by
  by_cases hk : k ∈ akeys c
  · rw [akeys_aset_mem c k v hk]; exact hnd
  · rw [akeys_aset_not_mem c k v hk]
    exact List.Nodup.append hnd (List.nodup_singleton k)
      (by simpa [List.disjoint_singleton] using hk)

theorem alookup_foldl_aset {α β : Type} (key : α → String) (val : α → β)
    (xs : List α) :
    ∀ (c0 : List (String × β)) (l : String),
      alookup (xs.foldl (fun c a => aset c (key a) (val a)) c0) l =
        xs.foldl (fun acc a => if key a = l then some (val a) else acc) (alookup c0 l) := by
  induction xs with
  | nil => intro c0 l; rfl
  | cons a rest ih =>
      intro c0 l
      simp only [List.foldl_cons]
      rw [ih, alookup_aset]

theorem mem_akeys_foldl_aset {α β : Type} (key : α → String) (val : α → β)
    (xs : List α) :
    ∀ (c0 : List (String × β)) (l : String),
      l ∈ akeys (xs.foldl (fun c a => aset c (key a) (val a)) c0) ↔
        l ∈ akeys c0 ∨ ∃ a ∈ xs, key a = l := by
  induction xs with
  | nil => intro c0 l; simp
  | cons a rest ih =>
      intro c0 l
      simp only [List.foldl_cons]
      rw [ih, mem_akeys_aset]
      simp only [List.mem_cons]
      constructor
      · rintro ((h | h) | ⟨a2, ha2, hk⟩)
        · exact Or.inr ⟨a, Or.inl rfl, h.symm⟩
        · exact Or.inl h
        · exact Or.inr ⟨a2, Or.inr ha2, hk⟩
      · rintro (h | ⟨a2, (h2 | h2), hk⟩)
        · exact Or.inl (Or.inr h)
        · exact Or.inl (Or.inl (h2 ▸ hk.symm))
        · exact Or.inr ⟨a2, h2, hk⟩

theorem nodup_akeys_foldl_aset {α β : Type} (key : α → String) (val : α → β)
    (xs : List α) :
    ∀ (c0 : List (String × β)), (akeys c0).Nodup →
      (akeys (xs.foldl (fun c a => aset c (key a) (val a)) c0)).Nodup := by
  induction xs with
  | nil => intro c0 h; exact h
  | cons a rest ih =>
      intro c0 h
      simp only [List.foldl_cons]
      exact ih _ (nodup_akeys_aset _ _ _ h)

theorem foldl_optpick_no_match {α β : Type} (key : α → String) (val : α → β)
    (l : String) (xs : List α) (init : Option β)
    (h : ∀ a ∈ xs, ¬ key a = l) :
    xs.foldl (fun acc a => if key a = l then some (val a) else acc) init = init := by
  induction xs generalizing init with
  | nil => rfl
  | cons a rest ih =>
      simp only [List.foldl_cons]
      rw [if_neg (h a (by simp))]
      exact ih _ (fun a2 ha2 => h a2 (List.mem_cons_of_mem _ ha2))

theorem foldl_optpick_const {α β : Type} (key : α → String) (val : α → β)
    (l : String) (xs : List α) (init : Option β) (w : β)
    (hconst : ∀ a ∈ xs, key a = l → val a = w)
    (hex : ∃ a ∈ xs, key a = l) :
    xs.foldl (fun acc a => if key a = l then some (val a) else acc) init = some w := by
  induction xs generalizing init with
  | nil => exact absurd hex (by simp)
  | cons a rest ih =>
      by_cases hrest : ∃ a2 ∈ rest, key a2 = l
      · simp only [List.foldl_cons]
        exact ih _ (fun a2 ha2 hk => hconst a2 (List.mem_cons_of_mem _ ha2) hk) hrest
      · have ha : key a = l := by
          rcases hex with ⟨a2, ha2, hk⟩
          rcases List.mem_cons.mp ha2 with h2 | h2
          · exact h2 ▸ hk
          · exact absurd ⟨a2, h2, hk⟩ hrest
        have hno : ∀ a2 ∈ rest, ¬ key a2 = l := fun a2 ha2 hk => hrest ⟨a2, ha2, hk⟩
        simp only [List.foldl_cons, if_pos ha]
        rw [foldl_optpick_no_match key val l rest (some (val a)) hno,
            hconst a (List.mem_cons_self a rest) ha]

theorem foldl_optpick_some {α β : Type} (key : α → String) (val : α → β)
    (l : String) (xs : List α) (init : Option β) (v : β)
    (h : xs.foldl (fun acc a => if key a = l then some (val a) else acc) init = some v) :
    (∃ a ∈ xs, key a = l ∧ val a = v) ∨ init = some v := by
  induction xs generalizing init with
  | nil => exact Or.inr h
  | cons a rest ih =>
      simp only [List.foldl_cons] at h
      rcases ih _ h with ⟨a2, ha2, hk, hv⟩ | h2
      · exact Or.inl ⟨a2, List.mem_cons_of_mem _ ha2, hk, hv⟩
      · by_cases ha : key a = l
        · rw [if_pos ha] at h2
          exact Or.inl ⟨a, by simp, ha, Option.some.inj h2⟩
        · rw [if_neg ha] at h2
          exact Or.inr h2

theorem max_eq_ite {α : Type} [LinearOrder α] (a b : α) :
    max a b = if a < b then b else a := by
  rcases lt_or_ge a b with h | h
  · rw [if_pos h, max_eq_right h.le]
  · rw [if_neg (not_lt.mpr h), max_eq_left h]

/-- One strict-improvement step on a single cell entry. -/
def upd1 {W : Type} [LinearOrderedAddCommMonoid W]
    (cur e : WithBot W × BP) : WithBot W × BP :=
  if cur.1 < e.1 then e else cur

theorem upd1_fst {W : Type} [LinearOrderedAddCommMonoid W]
    (cur e : WithBot W × BP) : (upd1 cur e).1 = max cur.1 e.1 := by
  unfold upd1
  rw [apply_ite Prod.fst, max_eq_ite]

theorem updCell_none {W : Type} [LinearOrderedAddCommMonoid W]
    {c : List (String × (WithBot W × BP))} {e : String × (WithBot W × BP)}
    (hc : alookup c e.1 = none) : updCell c e = c := by
  unfold updCell
  rw [hc]

theorem updCell_some {W : Type} [LinearOrderedAddCommMonoid W]
    {c : List (String × (WithBot W × BP))} {e : String × (WithBot W × BP)}
    {cur : WithBot W × BP} (hc : alookup c e.1 = some cur) :
    updCell c e = if cur.1 < e.2.1 then aset c e.1 e.2 else c := by
  unfold updCell
  rw [hc]

theorem alookup_updCell_ne {W : Type} [LinearOrderedAddCommMonoid W]
    (c : List (String × (WithBot W × BP))) (e : String × (WithBot W × BP))
    (l : String) (hne : ¬ e.1 = l) :
    alookup (updCell c e) l = alookup c l := by
  cases hc : alookup c e.1 with
  | none => rw [updCell_none hc]
  | some cur =>
      rw [updCell_some hc]
      by_cases hlt : cur.1 < e.2.1
      · rw [if_pos hlt, alookup_aset, if_neg hne]
      · rw [if_neg hlt]

theorem alookup_updCell_eq {W : Type} [LinearOrderedAddCommMonoid W]
    (c : List (String × (WithBot W × BP))) (e : String × (WithBot W × BP))
    (l : String) (hel : e.1 = l) :
    alookup (updCell c e) l = (alookup c l).map (fun v => upd1 v e.2) := by
  cases hc : alookup c e.1 with
  | none =>
      have hcl : alookup c l = none := by rw [← hel]; exact hc
      rw [updCell_none hc, hcl]
      rfl
  | some cur =>
      have hcl : alookup c l = some cur := by rw [← hel]; exact hc
      rw [updCell_some hc]
      by_cases hlt : cur.1 < e.2.1
      · rw [if_pos hlt, alookup_aset, if_pos hel, hcl]
        simp [upd1, hlt]
      · rw [if_neg hlt, hcl]
        simp [upd1, hlt]

theorem alookup_foldl_updCell {W : Type} [LinearOrderedAddCommMonoid W]
    (cs : List (String × (WithBot W × BP))) :
    ∀ (c : List (String × (WithBot W × BP))) (l : String),
      alookup (cs.foldl updCell c) l =
        (alookup c l).map (fun v =>
          ((cs.filter (fun e => decide (e.1 = l))).map Prod.snd).foldl upd1 v) := by
  induction cs with
  | nil =>
      intro c l
      simp only [List.foldl_nil, List.filter_nil, List.map_nil]
      cases alookup c l <;> rfl
  | cons e rest ih =>
      intro c l
      simp only [List.foldl_cons]
      rw [ih]
      by_cases hel : e.1 = l
      · rw [alookup_updCell_eq c e l hel]
        rw [List.filter_cons_of_pos (by simp [hel])]
        cases alookup c l <;> simp
      · rw [alookup_updCell_ne c e l hel]
        rw [List.filter_cons_of_neg (by simp [hel])]

theorem akeys_updCell {W : Type} [LinearOrderedAddCommMonoid W]
    (c : List (String × (WithBot W × BP))) (e : String × (WithBot W × BP)) :
    akeys (updCell c e) = akeys c := by
  cases hc : alookup c e.1 with
  | none => rw [updCell_none hc]
  | some cur =>
      rw [updCell_some hc]
      by_cases hlt : cur.1 < e.2.1
      · rw [if_pos hlt]
        exact akeys_aset_mem c e.1 e.2 ((mem_akeys_iff_lookup c e.1).mpr ⟨cur, hc⟩)
      · rw [if_neg hlt]

theorem akeys_foldl_updCell {W : Type} [LinearOrderedAddCommMonoid W]
    (cs : List (String × (WithBot W × BP))) :
    ∀ (c : List (String × (WithBot W × BP))),
      akeys (cs.foldl updCell c) = akeys c := by
  induction cs with
  | nil => intro c; rfl
  | cons e rest ih =>
      intro c
      simp only [List.foldl_cons]
      rw [ih, akeys_updCell]

theorem foldl_upd1_fst {W : Type} [LinearOrderedAddCommMonoid W]
    (es : List (WithBot W × BP)) :
    ∀ v : WithBot W × BP,
      (es.foldl upd1 v).1 = es.foldl (fun s e => max s e.1) v.1 := by
  induction es with
  | nil => intro v; rfl
  | cons e rest ih =>
      intro v
      simp only [List.foldl_cons]
      rw [ih, upd1_fst]

theorem foldl_max_init_le {W : Type} [LinearOrderedAddCommMonoid W]
    (es : List (WithBot W × BP)) :
    ∀ s : WithBot W, s ≤ es.foldl (fun a e => max a e.1) s := by
  induction es with
  | nil => intro s; exact le_refl s
  | cons e rest ih =>
      intro s
      simp only [List.foldl_cons]
      exact le_trans (le_max_left s e.1) (ih _)

theorem foldl_max_mem_le {W : Type} [LinearOrderedAddCommMonoid W]
    (es : List (WithBot W × BP)) :
    ∀ s : WithBot W, ∀ e ∈ es, e.1 ≤ es.foldl (fun a e => max a e.1) s := by
  induction es with
  | nil => intro s e he; simp at he
  | cons e2 rest ih =>
      intro s e he
      simp only [List.foldl_cons]
      rcases List.mem_cons.mp he with h | h
      · exact le_trans (h ▸ le_max_right s e2.1) (foldl_max_init_le rest _)
      · exact ih _ e h

theorem foldl_upd1_cases {W : Type} [LinearOrderedAddCommMonoid W]
    (es : List (WithBot W × BP)) :
    ∀ v : WithBot W × BP,
      (es.foldl upd1 v = v ∧ ∀ e ∈ es, e.1 ≤ v.1) ∨
        (v.1 < (es.foldl upd1 v).1 ∧
          es.find? (fun e => decide (e.1 = (es.foldl upd1 v).1)) =
            some (es.foldl upd1 v)) := by
  induction es with
  | nil => intro v; exact Or.inl ⟨rfl, by simp⟩
  | cons e rest ih =>
      intro v
      simp only [List.foldl_cons]
      by_cases hlt : v.1 < e.1
      · have hv2 : upd1 v e = e := by unfold upd1; rw [if_pos hlt]
        simp only [hv2]
        rcases ih e with ⟨hr, hub⟩ | ⟨hlt2, hfind⟩
        · right
          rw [hr]
          exact ⟨hlt, List.find?_cons_of_pos _ (by simp)⟩
        · right
          refine ⟨lt_trans hlt hlt2, ?_⟩
          rw [List.find?_cons_of_neg _ (by simpa using ne_of_lt hlt2)]
          exact hfind
      · have hv2 : upd1 v e = v := by unfold upd1; rw [if_neg hlt]
        simp only [hv2]
        rcases ih v with ⟨hr, hub⟩ | ⟨hlt2, hfind⟩
        · left
          rw [hr]
          refine ⟨rfl, ?_⟩
          intro e2 he2
          rcases List.mem_cons.mp he2 with h | h
          · exact h ▸ not_lt.mp hlt
          · exact hub e2 h
        · right
          refine ⟨hlt2, ?_⟩
          have hne : ¬ (e.1 = (rest.foldl upd1 v).1) :=
            ne_of_lt (lt_of_le_of_lt (not_lt.mp hlt) hlt2)
          rw [List.find?_cons_of_neg _ (by simpa using hne)]
          exact hfind

/-- The candidate entries for a fixed lhs `l`, in enumeration order. -/
def candsFor {W : Type} [LinearOrderedAddCommMonoid W] (lg : Frac → W) (g : Pcfg)
    (ch : Nat × Nat → List (String × (WithBot W × BP))) (i j : Nat) (l : String) :
    List (WithBot W × BP) :=
  ((candList lg g ch i j).filter (fun e => decide (e.1 = l))).map Prod.snd

theorem alookup_buildCell {W : Type} [LinearOrderedAddCommMonoid W] (lg : Frac → W)
    (g : Pcfg) (ch : Nat × Nat → List (String × (WithBot W × BP))) (i j : Nat)
    (l : String) :
    alookup (buildCell lg g ch i j) l =
      if l ∈ (candList lg g ch i j).map Prod.fst
      then some ((candsFor lg g ch i j l).foldl upd1 ((⊥ : WithBot W), BP.sent))
      else none := by
  unfold buildCell
  rw [alookup_foldl_updCell]
  rw [alookup_foldl_aset Prod.fst
    (fun _ : String × (WithBot W × BP) => ((⊥ : WithBot W), BP.sent))]
  rw [alookup_nil]
  by_cases hmem : l ∈ (candList lg g ch i j).map Prod.fst
  · rw [if_pos hmem]
    rw [foldl_optpick_const Prod.fst
      (fun _ : String × (WithBot W × BP) => ((⊥ : WithBot W), BP.sent)) l _ _
      ((⊥ : WithBot W), BP.sent) (fun a _ _ => rfl)
      (by rcases List.mem_map.mp hmem with ⟨e, he, hel⟩; exact ⟨e, he, hel⟩)]
    rfl
  · rw [if_neg hmem]
    rw [foldl_optpick_no_match Prod.fst
      (fun _ : String × (WithBot W × BP) => ((⊥ : WithBot W), BP.sent)) l _ _
      (fun a ha hal => hmem (List.mem_map.mpr ⟨a, ha, hal⟩))]
    rfl

theorem mem_akeys_buildCell {W : Type} [LinearOrderedAddCommMonoid W] (lg : Frac → W)
    (g : Pcfg) (ch : Nat × Nat → List (String × (WithBot W × BP))) (i j : Nat)
    (l : String) :
    l ∈ akeys (buildCell lg g ch i j) ↔ ∃ e ∈ candList lg g ch i j, e.1 = l := by
  unfold buildCell
  rw [akeys_foldl_updCell]
  rw [mem_akeys_foldl_aset Prod.fst
    (fun _ : String × (WithBot W × BP) => ((⊥ : WithBot W), BP.sent))]
  constructor
  · rintro (h | h)
    · exact absurd h (List.not_mem_nil l)
    · exact h
  · exact Or.inr

theorem nodup_akeys_buildCell {W : Type} [LinearOrderedAddCommMonoid W] (lg : Frac → W)
    (g : Pcfg) (ch : Nat × Nat → List (String × (WithBot W × BP))) (i j : Nat) :
    (akeys (buildCell lg g ch i j)).Nodup := by
  unfold buildCell
  rw [akeys_foldl_updCell]
  exact nodup_akeys_foldl_aset _ _ _ _ (by simp [akeys_nil])

theorem alookup_baseCell {W : Type} [LinearOrderedAddCommMonoid W] (lg : Frac → W)
    (g : Pcfg) (t : String) (l : String) :
    alookup (baseCell lg g t) l =
      (g.rhs_to_rules [t]).foldl
        (fun acc r => if r.lhs = l
          then some ((lg r.prob : WithBot W), BP.leaf t) else acc) none := by
  unfold baseCell
  rw [alookup_foldl_aset Rule.lhs
    (fun r : Rule => ((lg r.prob : WithBot W), BP.leaf t)), alookup_nil]

theorem mem_akeys_baseCell {W : Type} [LinearOrderedAddCommMonoid W] (lg : Frac → W)
    (g : Pcfg) (t : String) (l : String) :
    l ∈ akeys (baseCell lg g t) ↔ ∃ r ∈ g.rhs_to_rules [t], r.lhs = l := by
  unfold baseCell
  rw [mem_akeys_foldl_aset Rule.lhs
    (fun r : Rule => ((lg r.prob : WithBot W), BP.leaf t))]
  simp [akeys_nil]

theorem nodup_akeys_baseCell {W : Type} [LinearOrderedAddCommMonoid W] (lg : Frac → W)
    (g : Pcfg) (t : String) : (akeys (baseCell lg g t)).Nodup := by
  unfold baseCell
  exact nodup_akeys_foldl_aset _ _ _ _ (by simp [akeys_nil])

theorem flatMap_congr {α β : Type} {l : List α} {f f2 : α → List β}
    (h : ∀ a ∈ l, f a = f2 a) : l.flatMap f = l.flatMap f2 := by
  induction l with
  | nil => rfl
  | cons a rest ih =>
      simp only [List.flatMap_cons]
      rw [h a (by simp), ih (fun a2 ha2 => h a2 (List.mem_cons_of_mem _ ha2))]

theorem foldl_congr_fn {α β : Type} (l : List β) (f f2 : α → β → α) :
    ∀ a : α, (∀ acc : α, ∀ b ∈ l, f acc b = f2 acc b) →
      l.foldl f a = l.foldl f2 a := by
  induction l with
  | nil => intro a _; rfl
  | cons b rest ih =>
      intro a h
      simp only [List.foldl_cons]
      rw [h a b (by simp)]
      exact ih _ (fun acc b2 hb2 => h acc b2 (List.mem_cons_of_mem _ hb2))

theorem candList_congr {W : Type} [LinearOrderedAddCommMonoid W] (lg : Frac → W)
    (g : Pcfg) (ch ch2 : Nat × Nat → List (String × (WithBot W × BP))) (i j : Nat)
    (h : ∀ k, i < k → k < j → ch (i, k) = ch2 (i, k) ∧ ch (k, j) = ch2 (k, j)) :
    candList lg g ch i j = candList lg g ch2 i j := by
  unfold candList
  apply flatMap_congr
  intro k hk
  have hk2 := List.mem_range'_1.mp hk
  have hik : i < k := by omega
  have hkj : k < j := by omega
  rw [(h k hik hkj).1, (h k hik hkj).2]

theorem buildCell_congr {W : Type} [LinearOrderedAddCommMonoid W] (lg : Frac → W)
    (g : Pcfg) (ch ch2 : Nat × Nat → List (String × (WithBot W × BP))) (i j : Nat)
    (h : ∀ k, i < k → k < j → ch (i, k) = ch2 (i, k) ∧ ch (k, j) = ch2 (k, j)) :
    buildCell lg g ch i j = buildCell lg g ch2 i j := by
  unfold buildCell
  rw [candList_congr lg g ch ch2 i j h]

theorem chartF_zero {W : Type} [LinearOrderedAddCommMonoid W] (lg : Frac → W)
    (g : Pcfg) (toks : List String) (sp : Nat × Nat) :
    chartF lg g toks 0 sp = [] := rfl

theorem chartF_succ {W : Type} [LinearOrderedAddCommMonoid W] (lg : Frac → W)
    (g : Pcfg) (toks : List String) (fuel i j : Nat) :
    chartF lg g toks (fuel + 1) (i, j) =
      if j = i + 1 then
        (match toks.get? i with
         | some t => baseCell lg g t
         | none => [])
      else if i + 2 ≤ j ∧ j ≤ toks.length then
        buildCell lg g (fun sp2 => chartF lg g toks fuel sp2) i j
      else [] := rfl

theorem chartF_fuel {W : Type} [LinearOrderedAddCommMonoid W] (lg : Frac → W)
    (g : Pcfg) (toks : List String) :
    ∀ (fuel i j : Nat), j - i ≤ fuel →
      chartF lg g toks fuel (i, j) = cellAt lg g toks i j := by
  intro fuel
  induction fuel using Nat.strong_induction_on with
  | _ fuel ih =>
      intro i j hle
      unfold cellAt
      match fuel with
      | 0 =>
          have h0 : j - i = 0 := by omega
          rw [h0]
      | fuel + 1 =>
          by_cases hb : j = i + 1
          · have h1 : j - i = 1 := by omega
            rw [h1, chartF_succ, chartF_succ, if_pos hb, if_pos hb]
          · by_cases hc : i + 2 ≤ j ∧ j ≤ toks.length
            · have hd : j - i = (j - i - 1) + 1 := by omega
              rw [hd, chartF_succ, chartF_succ, if_neg hb, if_neg hb,
                if_pos hc, if_pos hc]
              apply buildCell_congr
              intro k hik hkj
              constructor
              · rw [ih fuel (by omega) i k (by omega),
                  ih (j - i - 1) (by omega) i k (by omega)]
              · rw [ih fuel (by omega) k j (by omega),
                  ih (j - i - 1) (by omega) k j (by omega)]
            · rcases Nat.eq_zero_or_pos (j - i) with h0 | hpos
              · rw [h0, chartF_succ, if_neg hb, if_neg hc, chartF_zero]
              · have hd : j - i = (j - i - 1) + 1 := by omega
                rw [hd, chartF_succ, chartF_succ, if_neg hb, if_neg hb,
                  if_neg hc, if_neg hc]

theorem piF_zero (g : Pcfg) (toks : List String) (sp : Nat × Nat) :
    piF g toks 0 sp = [] := rfl

theorem piF_succ (g : Pcfg) (toks : List String) (fuel i j : Nat) :
    piF g toks (fuel + 1) (i, j) =
      if j = i + 1 then
        (match toks.get? i with
         | some t => initLhs g t
         | none => [])
      else if i + 2 ≤ j ∧ j ≤ toks.length then
        (List.range' (i + 1) (j - i - 1)).foldl
          (fun acc k =>
            acc ++ (piF g toks fuel (i, k)).flatMap
              (fun b => (piF g toks fuel (k, j)).flatMap
                (fun c => (g.rhs_to_rules [b, c]).map (fun r => r.lhs))))
          []
      else [] := rfl

theorem piF_fuel (g : Pcfg) (toks : List String) :
    ∀ (fuel i j : Nat), j - i ≤ fuel →
      piF g toks fuel (i, j) = piAt g toks i j := by
  intro fuel
  induction fuel using Nat.strong_induction_on with
  | _ fuel ih =>
      intro i j hle
      unfold piAt
      match fuel with
      | 0 =>
          have h0 : j - i = 0 := by omega
          rw [h0]
      | fuel + 1 =>
          by_cases hb : j = i + 1
          · have h1 : j - i = 1 := by omega
            rw [h1, piF_succ, piF_succ, if_pos hb, if_pos hb]
          · by_cases hc : i + 2 ≤ j ∧ j ≤ toks.length
            · have hd : j - i = (j - i - 1) + 1 := by omega
              rw [hd, piF_succ, piF_succ, if_neg hb, if_neg hb,
                if_pos hc, if_pos hc]
              apply foldl_congr_fn
              intro acc k hk
              have hk2 := List.mem_range'_1.mp hk
              have hik : i < k := by omega
              have hkj : k < j := by omega
              rw [ih fuel (by omega) i k (by omega),
                ih (j - i - 1) (by omega) i k (by omega),
                ih fuel (by omega) k j (by omega),
                ih (j - i - 1) (by omega) k j (by omega)]
            · rcases Nat.eq_zero_or_pos (j - i) with h0 | hpos
              · rw [h0, piF_succ, if_neg hb, if_neg hc, piF_zero]
              · have hd : j - i = (j - i - 1) + 1 := by omega
                rw [hd, piF_succ, piF_succ, if_neg hb, if_neg hb,
                  if_neg hc, if_neg hc]

theorem get_some_of_lt {toks : List String} {i : Nat} (hi : i < toks.length) :
    toks.get? i = some toks[i] := by
  rw [List.get?_eq_getElem?]
  exact List.getElem?_eq_getElem hi

theorem cellAt_base {W : Type} [LinearOrderedAddCommMonoid W] (lg : Frac → W)
    (g : Pcfg) (toks : List String) (i : Nat) (hi : i < toks.length) :
    cellAt lg g toks i (i + 1) = baseCell lg g toks[i] := by
  unfold cellAt
  rw [show i + 1 - i = 1 from by omega, chartF_succ, if_pos rfl, get_some_of_lt hi]

theorem cellAt_short {W : Type} [LinearOrderedAddCommMonoid W] (lg : Frac → W)
    (g : Pcfg) (toks : List String) (i : Nat) (hi : ¬ i < toks.length) :
    cellAt lg g toks i (i + 1) = [] := by
  unfold cellAt
  rw [show i + 1 - i = 1 from by omega, chartF_succ, if_pos rfl]
  have : toks.get? i = none := by
    rw [List.get?_eq_getElem?]
    exact List.getElem?_eq_none (by omega)
  rw [this]

theorem cellAt_step {W : Type} [LinearOrderedAddCommMonoid W] (lg : Frac → W)
    (g : Pcfg) (toks : List String) (i j : Nat) (h2 : i + 2 ≤ j)
    (hn : j ≤ toks.length) :
    cellAt lg g toks i j =
      buildCell lg g (fun sp => cellAt lg g toks sp.1 sp.2) i j := by
  have hd : j - i = (j - i - 1) + 1 := by omega
  calc cellAt lg g toks i j
      = chartF lg g toks ((j - i - 1) + 1) (i, j) := by unfold cellAt; rw [← hd]
    _ = buildCell lg g (fun sp2 => chartF lg g toks (j - i - 1) sp2) i j := by
        rw [chartF_succ, if_neg (by omega), if_pos ⟨h2, hn⟩]
    _ = buildCell lg g (fun sp => cellAt lg g toks sp.1 sp.2) i j := by
        apply buildCell_congr
        intro k hik hkj
        exact ⟨chartF_fuel lg g toks (j - i - 1) i k (by omega),
               chartF_fuel lg g toks (j - i - 1) k j (by omega)⟩

theorem piAt_base (g : Pcfg) (toks : List String) (i : Nat) (hi : i < toks.length) :
    piAt g toks i (i + 1) = initLhs g toks[i] := by
  unfold piAt
  rw [show i + 1 - i = 1 from by omega, piF_succ, if_pos rfl, get_some_of_lt hi]

theorem piAt_step (g : Pcfg) (toks : List String) (i j : Nat) (h2 : i + 2 ≤ j)
    (hn : j ≤ toks.length) :
    piAt g toks i j =
      (List.range' (i + 1) (j - i - 1)).foldl
        (fun acc k =>
          acc ++ (piAt g toks i k).flatMap
            (fun b => (piAt g toks k j).flatMap
              (fun c => (g.rhs_to_rules [b, c]).map (fun r => r.lhs))))
        [] := by
  have hd : j - i = (j - i - 1) + 1 := by omega
  calc piAt g toks i j
      = piF g toks ((j - i - 1) + 1) (i, j) := by unfold piAt; rw [← hd]
    _ = _ := by
        rw [piF_succ, if_neg (by omega), if_pos ⟨h2, hn⟩]
        apply foldl_congr_fn
        intro acc k hk
        have hk2 := List.mem_range'_1.mp hk
        rw [piF_fuel g toks (j - i - 1) i k (by omega),
          piF_fuel g toks (j - i - 1) k j (by omega)]

theorem mem_foldl_append {α β : Type} (l : List β) (f : β → List α) :
    ∀ (acc : List α) (x : α),
      x ∈ l.foldl (fun acc k => acc ++ f k) acc ↔ x ∈ acc ∨ ∃ k ∈ l, x ∈ f k := by
  induction l with
  | nil => intro acc x; simp
  | cons k rest ih =>
      intro acc x
      simp only [List.foldl_cons]
      rw [ih]
      simp only [List.mem_append, List.mem_cons]
      constructor
      · rintro ((h | h) | ⟨k2, hk2, hx⟩)
        · exact Or.inl h
        · exact Or.inr ⟨k, Or.inl rfl, h⟩
        · exact Or.inr ⟨k2, Or.inr hk2, hx⟩
      · rintro (h | ⟨k2, (hk2 | hk2), hx⟩)
        · exact Or.inl (Or.inl h)
        · exact Or.inl (Or.inr (hk2 ▸ hx))
        · exact Or.inr ⟨k2, hk2, hx⟩

/-- Correctness of the recognition chart: a nonterminal is in the cell for
span `(i, j)` exactly when it derives `tokens[i:j]`. -/
theorem mem_piAt_iff (g : Pcfg) (toks : List String) :
    ∀ (d i j : Nat) (A : String), j - i = d → i < j → j ≤ toks.length →
      (A ∈ piAt g toks i j ↔ Derives g A (tokSlice toks i j)) := by
  intro d
  induction d using Nat.strong_induction_on with
  | _ d ih =>
      intro i j A hd hij hn
      by_cases hb : j = i + 1
      · subst hb
        have hi : i < toks.length := by omega
        rw [piAt_base g toks i hi, tokSlice_singleton hi]
        constructor
        · intro hA
          rcases List.mem_map.mp hA with ⟨r, hr, hlhs⟩
          rcases mem_rhs_to_rules.mp hr with ⟨hrr, hrhs⟩
          exact hlhs ▸ Derives.unary r hrr toks[i] hrhs
        · intro hD
          rcases derives_singleton hD rfl with ⟨r, hr, hlhs, hrhs⟩
          exact List.mem_map.mpr ⟨r, mem_rhs_to_rules.mpr ⟨hr, hrhs⟩, hlhs⟩
      · have h2 : i + 2 ≤ j := by omega
        rw [piAt_step g toks i j h2 hn, mem_foldl_append]
        constructor
        · rintro (h | ⟨k, hk, hA⟩)
          · exact absurd h (List.not_mem_nil A)
          · have hk2 := List.mem_range'_1.mp hk
            have hik : i < k := by omega
            have hkj : k < j := by omega
            rcases List.mem_flatMap.mp hA with ⟨b, hb2, hA2⟩
            rcases List.mem_flatMap.mp hA2 with ⟨c, hc2, hA3⟩
            rcases List.mem_map.mp hA3 with ⟨r, hr, hlhs⟩
            rcases mem_rhs_to_rules.mp hr with ⟨hrr, hrhs⟩
            have hDb : Derives g b (tokSlice toks i k) :=
              (ih (k - i) (by omega) i k b rfl hik (by omega)).mp hb2
            have hDc : Derives g c (tokSlice toks k j) :=
              (ih (j - k) (by omega) k j c rfl hkj hn).mp hc2
            have := Derives.binary r hrr b c _ _ hrhs hDb hDc
            rw [tokSlice_append (le_of_lt hik) (le_of_lt hkj)] at this
            exact hlhs ▸ this
        · intro hD
          have hlen : 2 ≤ (tokSlice toks i j).length := by
            rw [tokSlice_length hn]; omega
          rcases derives_long hlen hD with
            ⟨r, hrr, x, y, u, v, hlhs, hrhs, hs, hu, hv, hDx, hDy⟩
          obtain ⟨hik, hkj, hu2, hv2⟩ := tokSlice_split hs.symm hu hv hn
          right
          refine ⟨i + u.length, List.mem_range'_1.mpr ⟨by omega, by omega⟩, ?_⟩
          refine List.mem_flatMap.mpr ⟨x, ?_, ?_⟩
          · exact (ih (i + u.length - i) (by omega) i (i + u.length) x rfl hik
              (by omega)).mpr (hu2 ▸ hDx)
          · refine List.mem_flatMap.mpr ⟨y, ?_, ?_⟩
            · exact (ih (j - (i + u.length)) (by omega) (i + u.length) j y rfl hkj
                hn).mpr (hv2 ▸ hDy)
            · exact List.mem_map.mpr ⟨r, mem_rhs_to_rules.mpr ⟨hrr, hrhs⟩, hlhs⟩

theorem mem_candList {W : Type} [LinearOrderedAddCommMonoid W] (lg : Frac → W)
    (g : Pcfg) (ch : Nat × Nat → List (String × (WithBot W × BP))) (i j : Nat)
    (e : String × (WithBot W × BP)) :
    e ∈ candList lg g ch i j ↔
      ∃ k, i < k ∧ k < j ∧ ∃ xe ∈ ch (i, k), ∃ ye ∈ ch (k, j),
        ∃ r ∈ g.rhs_to_rules [xe.1, ye.1],
          e = (r.lhs, ((lg r.prob : WithBot W) + xe.2.1 + ye.2.1,
                BP.split (xe.1, i, k) (ye.1, k, j))) := by
  unfold candList
  constructor
  · intro h
    rcases List.mem_flatMap.mp h with ⟨k, hk, h2⟩
    have hk2 := List.mem_range'_1.mp hk
    rcases List.mem_flatMap.mp h2 with ⟨xe, hxe, h3⟩
    rcases List.mem_flatMap.mp h3 with ⟨ye, hye, h4⟩
    rcases List.mem_map.mp h4 with ⟨r, hr, he⟩
    exact ⟨k, by omega, by omega, xe, hxe, ye, hye, r, hr, he.symm⟩
  · rintro ⟨k, hik, hkj, xe, hxe, ye, hye, r, hr, he⟩
    refine List.mem_flatMap.mpr ⟨k, List.mem_range'_1.mpr ⟨by omega, by omega⟩, ?_⟩
    refine List.mem_flatMap.mpr ⟨xe, hxe, ?_⟩
    refine List.mem_flatMap.mpr ⟨ye, hye, ?_⟩
    exact List.mem_map.mpr ⟨r, hr, he.symm⟩

/-- The keys of a Viterbi chart cell are exactly the nonterminals deriving
the cell's token span (the same set the recognition chart computes). -/
theorem mem_akeys_cellAt_iff {W : Type} [LinearOrderedAddCommMonoid W]
    (lg : Frac → W) (g : Pcfg) (toks : List String) :
    ∀ (d i j : Nat) (l : String), j - i = d → i < j → j ≤ toks.length →
      (l ∈ akeys (cellAt lg g toks i j) ↔ Derives g l (tokSlice toks i j)) := by
  intro d
  induction d using Nat.strong_induction_on with
  | _ d ih =>
      intro i j l hd hij hn
      by_cases hb : j = i + 1
      · subst hb
        have hi : i < toks.length := by omega
        rw [cellAt_base lg g toks i hi, tokSlice_singleton hi,
          mem_akeys_baseCell]
        constructor
        · rintro ⟨r, hr, hlhs⟩
          rcases mem_rhs_to_rules.mp hr with ⟨hrr, hrhs⟩
          exact hlhs ▸ Derives.unary r hrr toks[i] hrhs
        · intro hD
          rcases derives_singleton hD rfl with ⟨r, hr, hlhs, hrhs⟩
          exact ⟨r, mem_rhs_to_rules.mpr ⟨hr, hrhs⟩, hlhs⟩
      · have h2 : i + 2 ≤ j := by omega
        rw [cellAt_step lg g toks i j h2 hn, mem_akeys_buildCell]
        constructor
        · rintro ⟨e, he, hel⟩
          rcases (mem_candList lg g _ i j e).mp he with
            ⟨k, hik, hkj, xe, hxe, ye, hye, r, hr, hee⟩
          rcases mem_rhs_to_rules.mp hr with ⟨hrr, hrhs⟩
          have hxk : xe.1 ∈ akeys (cellAt lg g toks i k) :=
            List.mem_map.mpr ⟨xe, hxe, rfl⟩
          have hyk : ye.1 ∈ akeys (cellAt lg g toks k j) :=
            List.mem_map.mpr ⟨ye, hye, rfl⟩
          have hDx : Derives g xe.1 (tokSlice toks i k) :=
            (ih (k - i) (by omega) i k xe.1 rfl hik (by omega)).mp hxk
          have hDy : Derives g ye.1 (tokSlice toks k j) :=
            (ih (j - k) (by omega) k j ye.1 rfl hkj hn).mp hyk
          have hbin := Derives.binary r hrr xe.1 ye.1 _ _ hrhs hDx hDy
          rw [tokSlice_append (le_of_lt hik) (le_of_lt hkj)] at hbin
          have : e.1 = r.lhs := by rw [hee]
          rw [← hel, this]
          exact hbin
        · intro hD
          have hlen : 2 ≤ (tokSlice toks i j).length := by
            rw [tokSlice_length hn]; omega
          rcases derives_long hlen hD with
            ⟨r, hrr, x, y, u, v, hlhs, hrhs, hs, hu, hv, hDx, hDy⟩
          obtain ⟨hik, hkj, hu2, hv2⟩ := tokSlice_split hs.symm hu hv hn
          have hxk : x ∈ akeys (cellAt lg g toks i (i + u.length)) :=
            (ih (i + u.length - i) (by omega) i (i + u.length) x rfl hik
              (by omega)).mpr (hu2 ▸ hDx)
          have hyk : y ∈ akeys (cellAt lg g toks (i + u.length) j) :=
            (ih (j - (i + u.length)) (by omega) (i + u.length) j y rfl hkj
              hn).mpr (hv2 ▸ hDy)
          rcases List.mem_map.mp hxk with ⟨xe, hxe, hxe1⟩
          rcases List.mem_map.mp hyk with ⟨ye, hye, hye1⟩
          refine ⟨(r.lhs, ((lg r.prob : WithBot W) + xe.2.1 + ye.2.1,
            BP.split (xe.1, i, i + u.length) (ye.1, i + u.length, j))), ?_, hlhs⟩
          refine (mem_candList lg g _ i j _).mpr
            ⟨i + u.length, hik, hkj, xe, hxe, ye, hye, r, ?_, rfl⟩
          exact mem_rhs_to_rules.mpr ⟨hrr, by rw [hxe1, hye1]; exact hrhs⟩

theorem nodup_akeys_chartF {W : Type} [LinearOrderedAddCommMonoid W]
    (lg : Frac → W) (g : Pcfg) (toks : List String) (fuel : Nat) (sp : Nat × Nat) :
    (akeys (chartF lg g toks fuel sp)).Nodup := by
  match fuel with
  | 0 => rw [chartF_zero]; exact List.nodup_nil
  | fuel + 1 =>
      obtain ⟨i, j⟩ := sp
      rw [chartF_succ]
      by_cases hb : j = i + 1
      · rw [if_pos hb]
        cases toks.get? i with
        | some t => exact nodup_akeys_baseCell lg g t
        | none => exact List.nodup_nil
      · rw [if_neg hb]
        by_cases hc : i + 2 ≤ j ∧ j ≤ toks.length
        · rw [if_pos hc]
          exact nodup_akeys_buildCell lg g _ i j
        · rw [if_neg hc]
          exact List.nodup_nil

theorem nodup_akeys_cellAt {W : Type} [LinearOrderedAddCommMonoid W]
    (lg : Frac → W) (g : Pcfg) (toks : List String) (i j : Nat) :
    (akeys (cellAt lg g toks i j)).Nodup :=
  nodup_akeys_chartF lg g toks (j - i) (i, j)

theorem candsFor_elem_shape {W : Type} [LinearOrderedAddCommMonoid W]
    (lg : Frac → W) (g : Pcfg) (toks : List String) (i j : Nat) (l : String)
    (e2 : WithBot W × BP)
    (he2 : e2 ∈ candsFor lg g (fun sp => cellAt lg g toks sp.1 sp.2) i j l) :
    ∃ k, i < k ∧ k < j ∧
      ∃ xe ∈ cellAt lg g toks i k, ∃ ye ∈ cellAt lg g toks k j, ∃ r ∈ g.rules,
        r.rhs = [xe.1, ye.1] ∧ r.lhs = l ∧
        e2 = ((lg r.prob : WithBot W) + xe.2.1 + ye.2.1,
              BP.split (xe.1, i, k) (ye.1, k, j)) := by
  unfold candsFor at he2
  rcases List.mem_map.mp he2 with ⟨e, he, hsnd⟩
  rcases List.mem_filter.mp he with ⟨hcand, hdec⟩
  have hel : e.1 = l := of_decide_eq_true hdec
  rcases (mem_candList lg g _ i j e).mp hcand with
    ⟨k, hik, hkj, xe, hxe, ye, hye, r, hr, hee⟩
  rcases mem_rhs_to_rules.mp hr with ⟨hrr, hrhs⟩
  refine ⟨k, hik, hkj, xe, hxe, ye, hye, r, hrr, hrhs, ?_, ?_⟩
  · rw [← hel, hee]
  · rw [← hsnd, hee]

theorem candsFor_mem_of {W : Type} [LinearOrderedAddCommMonoid W]
    (lg : Frac → W) (g : Pcfg) (toks : List String) (i j k : Nat)
    (xe ye : String × (WithBot W × BP)) (r : Rule)
    (hik : i < k) (hkj : k < j)
    (hxe : xe ∈ cellAt lg g toks i k) (hye : ye ∈ cellAt lg g toks k j)
    (hr : r ∈ g.rules) (hrhs : r.rhs = [xe.1, ye.1]) :
    ((lg r.prob : WithBot W) + xe.2.1 + ye.2.1,
      BP.split (xe.1, i, k) (ye.1, k, j)) ∈
      candsFor lg g (fun sp => cellAt lg g toks sp.1 sp.2) i j r.lhs := by
  unfold candsFor
  refine List.mem_map.mpr
    ⟨(r.lhs, ((lg r.prob : WithBot W) + xe.2.1 + ye.2.1,
      BP.split (xe.1, i, k) (ye.1, k, j))), ?_, rfl⟩
  refine List.mem_filter.mpr ⟨?_, by simp⟩
  exact (mem_candList lg g _ i j _).mpr
    ⟨k, hik, hkj, xe, hxe, ye, hye, r, mem_rhs_to_rules.mpr ⟨hr, hrhs⟩, rfl⟩

/-- Structure of the values stored by the Viterbi chart: every stored
score is finite (the `-inf` initialisation never survives, because every
initialised lhs has at least one candidate and candidate scores built from
finite sub-scores are finite), nonpositive whenever `lg` is nonpositive on
the rule probabilities; length-1 cells hold leaf backpointers for a
matching unary rule, and longer cells hold well-formed splits whose
children are present in the corresponding sub-cells. -/
theorem cellAt_values {W : Type} [LinearOrderedAddCommMonoid W]
    (lg : Frac → W) (g : Pcfg) (toks : List String) :
    ∀ (d i j : Nat) (l : String) (s : WithBot W) (bp : BP), j - i = d → i < j →
      j ≤ toks.length →
      alookup (cellAt lg g toks i j) l = some (s, bp) →
      (∃ q : W, s = (q : WithBot W) ∧
        ((∀ r ∈ g.rules, lg r.prob ≤ 0) → q ≤ 0)) ∧
      (j = i + 1 → ∃ hi : i < toks.length, bp = BP.leaf toks[i] ∧
        ∃ r ∈ g.rhs_to_rules [toks[i]], r.lhs = l ∧
          s = (lg r.prob : WithBot W)) ∧
      (i + 2 ≤ j → ∃ x k y, bp = BP.split (x, i, k) (y, k, j) ∧ i < k ∧ k < j ∧
        x ∈ akeys (cellAt lg g toks i k) ∧ y ∈ akeys (cellAt lg g toks k j)) := by
  intro d
  induction d using Nat.strong_induction_on with
  | _ d ih =>
      intro i j l s bp hd hij hn hlook
      by_cases hb : j = i + 1
      · subst hb
        have hi : i < toks.length := by
          by_contra hcon
          rw [cellAt_short lg g toks i hcon, alookup_nil] at hlook
          exact Option.noConfusion hlook
        rw [cellAt_base lg g toks i hi, alookup_baseCell] at hlook
        rcases foldl_optpick_some Rule.lhs
            (fun r : Rule => ((lg r.prob : WithBot W), BP.leaf toks[i])) l _
            none (s, bp) hlook with ⟨r, hr, hlhs, hval⟩ | hbad
        · have hs : s = (lg r.prob : WithBot W) := by
            have := congrArg Prod.fst hval
            exact this.symm
          have hbp : bp = BP.leaf toks[i] := by
            have := congrArg Prod.snd hval
            exact this.symm
          refine ⟨⟨lg r.prob, hs, fun hle => hle r (mem_rhs_to_rules.mp hr).1⟩,
            fun _ => ⟨hi, hbp, r, hr, hlhs, hs⟩, fun hcon => absurd hcon (by omega)⟩
        · exact Option.noConfusion hbad
      · have h2 : i + 2 ≤ j := by omega
        rw [cellAt_step lg g toks i j h2 hn, alookup_buildCell] at hlook
        by_cases hmem : l ∈ (candList lg g
            (fun sp => cellAt lg g toks sp.1 sp.2) i j).map Prod.fst
        · rw [if_pos hmem] at hlook
          set csl := candsFor lg g (fun sp => cellAt lg g toks sp.1 sp.2) i j l
            with hcsl
          have hres : csl.foldl upd1 ((⊥ : WithBot W), BP.sent) = (s, bp) :=
            Option.some.inj hlook
          -- a candidate for l exists, and its score is finite
          rcases List.mem_map.mp hmem with ⟨e, he, hel⟩
          have he0 : e.2 ∈ csl := by
            rw [hcsl]
            unfold candsFor
            exact List.mem_map.mpr ⟨e, List.mem_filter.mpr ⟨he, by simp [hel]⟩, rfl⟩
          -- every element of csl has a finite score
          have hfin : ∀ e2 ∈ csl, ∃ q : W, e2.1 = (q : WithBot W) ∧
              ((∀ r ∈ g.rules, lg r.prob ≤ 0) → q ≤ 0) := by
            intro e2 he2
            rcases candsFor_elem_shape lg g toks i j l e2 he2 with
              ⟨k, hik, hkj, xe, hxe, ye, hye, r, hrr, hrhs, hrl, he2eq⟩
            have hxlook : alookup (cellAt lg g toks i k) xe.1 = some xe.2 :=
              mem_alookup _ xe.1 xe.2 (nodup_akeys_cellAt lg g toks i k) hxe
            have hylook : alookup (cellAt lg g toks k j) ye.1 = some ye.2 :=
              mem_alookup _ ye.1 ye.2 (nodup_akeys_cellAt lg g toks k j) hye
            rcases (ih (k - i) (by omega) i k xe.1 xe.2.1 xe.2.2 rfl hik (by omega)
              hxlook).1 with ⟨qx, hqx, hqx0⟩
            rcases (ih (j - k) (by omega) k j ye.1 ye.2.1 ye.2.2 rfl hkj hn
              hylook).1 with ⟨qy, hqy, hqy0⟩
            refine ⟨lg r.prob + qx + qy, ?_, ?_⟩
            · rw [he2eq]
              show (lg r.prob : WithBot W) + xe.2.1 + ye.2.1 = _
              rw [hqx, hqy, ← WithBot.coe_add, ← WithBot.coe_add]
            · intro hle
              have h1 : lg r.prob ≤ 0 := hle r hrr
              have h2 : qx ≤ 0 := hqx0 hle
              have h3 : qy ≤ 0 := hqy0 hle
              calc lg r.prob + qx + qy ≤ 0 + 0 + 0 := by
                    exact add_le_add (add_le_add h1 h2) h3
                _ = 0 := by rw [add_zero, add_zero]
          rcases foldl_upd1_cases csl ((⊥ : WithBot W), BP.sent) with
            ⟨hr0, hub⟩ | ⟨hlt, hfind⟩
          · exfalso
            rcases hfin e.2 he0 with ⟨q, hq, _⟩
            have := hub e.2 he0
            rw [hq] at this
            exact WithBot.not_coe_le_bot q this
          · have hrmem : csl.foldl upd1 ((⊥ : WithBot W), BP.sent) ∈ csl :=
              List.mem_of_find?_eq_some hfind
            rw [hres] at hrmem
            rcases candsFor_elem_shape lg g toks i j l (s, bp) hrmem with
              ⟨k, hik, hkj, xe, hxe, ye, hye, r, hrr, hrhs, hrl, heq⟩
            have hs : s = (lg r.prob : WithBot W) + xe.2.1 + ye.2.1 :=
              congrArg Prod.fst heq
            have hbp : bp = BP.split (xe.1, i, k) (ye.1, k, j) :=
              congrArg Prod.snd heq
            refine ⟨?_, fun hcon => absurd hcon (by omega), ?_⟩
            · rcases hfin (s, bp) hrmem with ⟨q, hq, hq0⟩
              exact ⟨q, hq, hq0⟩
            · intro _
              exact ⟨xe.1, k, ye.1, hbp, hik, hkj,
                List.mem_map.mpr ⟨xe, hxe, rfl⟩,
                List.mem_map.mpr ⟨ye, hye, rfl⟩⟩
        · rw [if_neg hmem] at hlook
          exact Option.noConfusion hlook

/-- Optimality of the stored scores: under the hypothesis that duplicate
unary rules (same lhs, same terminal) carry the same log-probability,
every stored score is the greatest derivation weight for its nonterminal
and span.  (Without that hypothesis the base case stores the last-written
duplicate, which can be smaller — see the counterexample to C1.) -/
theorem cellAt_best {W : Type} [LinearOrderedAddCommMonoid W]
    (lg : Frac → W) (g : Pcfg) (toks : List String)
    (hdup : ∀ r ∈ g.rules, ∀ r2 ∈ g.rules, r.lhs = r2.lhs → r.rhs = r2.rhs →
      r.rhs.length = 1 → lg r.prob = lg r2.prob) :
    ∀ (d i j : Nat) (l : String) (s : WithBot W) (bp : BP), j - i = d → i < j →
      j ≤ toks.length →
      alookup (cellAt lg g toks i j) l = some (s, bp) →
      ∃ w : W, s = (w : WithBot W) ∧
        IsGreatest {w2 : W | DerivW lg g l (tokSlice toks i j) w2} w := by
  intro d
  induction d using Nat.strong_induction_on with
  | _ d ih =>
      intro i j l s bp hd hij hn hlook
      by_cases hb : j = i + 1
      · subst hb
        have hi : i < toks.length := by
          by_contra hcon
          rw [cellAt_short lg g toks i hcon, alookup_nil] at hlook
          exact Option.noConfusion hlook
        rw [cellAt_base lg g toks i hi, alookup_baseCell] at hlook
        rcases foldl_optpick_some Rule.lhs
            (fun r : Rule => ((lg r.prob : WithBot W), BP.leaf toks[i])) l _
            none (s, bp) hlook with ⟨r, hr, hlhs, hval⟩ | hbad
        · rcases mem_rhs_to_rules.mp hr with ⟨hrr, hrhs⟩
          have hs : s = (lg r.prob : WithBot W) := (congrArg Prod.fst hval).symm
          refine ⟨lg r.prob, hs, ?_, ?_⟩
          · show DerivW lg g l (tokSlice toks i (i + 1)) (lg r.prob)
            rw [tokSlice_singleton hi, ← hlhs]
            exact DerivW.unary r hrr toks[i] hrhs
          · intro w2 hw2
            have hw2b : DerivW lg g l (tokSlice toks i (i + 1)) w2 := hw2
            rw [tokSlice_singleton hi] at hw2b
            rcases derivW_singleton hw2b rfl with ⟨r2, hr2, hlhs2, hrhs2, hweq⟩
            have : lg r2.prob = lg r.prob :=
              hdup r2 hr2 r hrr (by rw [hlhs2, hlhs]) (by rw [hrhs2, hrhs])
                (by rw [hrhs2]; rfl)
            rw [hweq, this]
        · exact Option.noConfusion hbad
      · have h2 : i + 2 ≤ j := by omega
        have hfin := (cellAt_values lg g toks d i j l s bp hd hij hn hlook).1
        rw [cellAt_step lg g toks i j h2 hn, alookup_buildCell] at hlook
        by_cases hmem : l ∈ (candList lg g
            (fun sp => cellAt lg g toks sp.1 sp.2) i j).map Prod.fst
        · rw [if_pos hmem] at hlook
          set csl := candsFor lg g (fun sp => cellAt lg g toks sp.1 sp.2) i j l
            with hcsl
          have hres : csl.foldl upd1 ((⊥ : WithBot W), BP.sent) = (s, bp) :=
            Option.some.inj hlook
          have hub : ∀ e2 ∈ csl, e2.1 ≤ s := by
            intro e2 he2
            have h1 : (csl.foldl upd1 ((⊥ : WithBot W), BP.sent)).1 =
                csl.foldl (fun a e => max a e.1) (⊥ : WithBot W) :=
              foldl_upd1_fst csl _
            have h3 := foldl_max_mem_le csl (⊥ : WithBot W) e2 he2
            rw [← h1, hres] at h3
            exact h3
          have hrmem : (s, bp) ∈ csl := by
            rcases foldl_upd1_cases csl ((⊥ : WithBot W), BP.sent) with
              ⟨hr0, hub0⟩ | ⟨hlt, hfind⟩
            · exfalso
              rcases hfin with ⟨q, hq, _⟩
              rw [hres] at hr0
              have : s = ⊥ := congrArg Prod.fst hr0
              rw [hq] at this
              exact Option.noConfusion this
            · have := List.mem_of_find?_eq_some hfind
              rw [hres] at this
              exact this
          rcases candsFor_elem_shape lg g toks i j l (s, bp) hrmem with
            ⟨k, hik, hkj, xe, hxe, ye, hye, r, hrr, hrhs, hrl, heq⟩
          have hs : s = (lg r.prob : WithBot W) + xe.2.1 + ye.2.1 :=
            congrArg Prod.fst heq
          have hxlook : alookup (cellAt lg g toks i k) xe.1 = some xe.2 :=
            mem_alookup _ xe.1 xe.2 (nodup_akeys_cellAt lg g toks i k) hxe
          have hylook : alookup (cellAt lg g toks k j) ye.1 = some ye.2 :=
            mem_alookup _ ye.1 ye.2 (nodup_akeys_cellAt lg g toks k j) hye
          rcases ih (k - i) (by omega) i k xe.1 xe.2.1 xe.2.2 rfl hik (by omega)
            hxlook with ⟨wx, hwx, hwxmem, hwxub⟩
          rcases ih (j - k) (by omega) k j ye.1 ye.2.1 ye.2.2 rfl hkj hn
            hylook with ⟨wy, hwy, hwymem, hwyub⟩
          refine ⟨lg r.prob + wx + wy, ?_, ?_, ?_⟩
          · rw [hs, hwx, hwy, ← WithBot.coe_add, ← WithBot.coe_add]
          · show DerivW lg g l (tokSlice toks i j) (lg r.prob + wx + wy)
            have hbin := DerivW.binary r hrr xe.1 ye.1 _ _ wx wy hrhs hwxmem hwymem
            rw [tokSlice_append (le_of_lt hik) (le_of_lt hkj)] at hbin
            rw [← hrl]
            exact hbin
          · intro w2 hw2
            have hw2b : DerivW lg g l (tokSlice toks i j) w2 := hw2
            have hlen : 2 ≤ (tokSlice toks i j).length := by
              rw [tokSlice_length hn]; omega
            rcases derivW_long hlen hw2b with
              ⟨r2, hr2, x, y, u, v, wx2, wy2, hlhs2, hrhs2, hsplit, hu, hv,
                hdx, hdy, hweq⟩
            obtain ⟨hik2, hkj2, hu2, hv2⟩ := tokSlice_split hsplit.symm hu hv hn
            -- children are present in the sub-cells with maximal scores
            have hxkey : x ∈ akeys (cellAt lg g toks i (i + u.length)) :=
              (mem_akeys_cellAt_iff lg g toks (i + u.length - i) i (i + u.length)
                x rfl hik2 (by omega)).mpr
                (derives_of_derivW (hu2 ▸ hdx))
            have hykey : y ∈ akeys (cellAt lg g toks (i + u.length) j) :=
              (mem_akeys_cellAt_iff lg g toks (j - (i + u.length)) (i + u.length)
                j y rfl hkj2 hn).mpr (derives_of_derivW (hv2 ▸ hdy))
            rcases List.mem_map.mp hxkey with ⟨xe2, hxe2, hxe2f⟩
            rcases List.mem_map.mp hykey with ⟨ye2, hye2, hye2f⟩
            have hxlook2 : alookup (cellAt lg g toks i (i + u.length)) xe2.1 =
                some xe2.2 :=
              mem_alookup _ xe2.1 xe2.2
                (nodup_akeys_cellAt lg g toks i (i + u.length)) hxe2
            have hylook2 : alookup (cellAt lg g toks (i + u.length) j) ye2.1 =
                some ye2.2 :=
              mem_alookup _ ye2.1 ye2.2
                (nodup_akeys_cellAt lg g toks (i + u.length) j) hye2
            rcases ih (i + u.length - i) (by omega) i (i + u.length) xe2.1
              xe2.2.1 xe2.2.2 rfl hik2 (by omega) hxlook2 with
              ⟨wxm, hwxm, hwxmmem, hwxmub⟩
            rcases ih (j - (i + u.length)) (by omega) (i + u.length) j ye2.1
              ye2.2.1 ye2.2.2 rfl hkj2 hn hylook2 with
              ⟨wym, hwym, hwymmem, hwymub⟩
            have hwx2le : wx2 ≤ wxm := by
              apply hwxmub
              show DerivW lg g xe2.1 (tokSlice toks i (i + u.length)) wx2
              rw [hxe2f, ← hu2]
              exact hdx
            have hwy2le : wy2 ≤ wym := by
              apply hwymub
              show DerivW lg g ye2.1 (tokSlice toks (i + u.length) j) wy2
              rw [hye2f, ← hv2]
              exact hdy
            -- the maximal-children candidate is enumerated, so bounded by s
            have hcand := candsFor_mem_of lg g toks i j (i + u.length) xe2 ye2 r2
              hik2 hkj2 hxe2 hye2 hr2 (by rw [hxe2f, hye2f]; exact hrhs2)
            rw [hlhs2] at hcand
            have hcle := hub _ hcand
            have hcle2 : lg r2.prob + wxm + wym ≤ w2 ∨ True := Or.inr trivial
            rcases hfin with ⟨q, hq, _⟩
            have hsq : s = (q : WithBot W) := hq
            rw [hsq] at hcle
            have hcle3 : (lg r2.prob : WithBot W) + xe2.2.1 + ye2.2.1 ≤
                (q : WithBot W) := hcle
            rw [hwxm, hwym, ← WithBot.coe_add, ← WithBot.coe_add] at hcle3
            have hle : lg r2.prob + wxm + wym ≤ q := WithBot.coe_le_coe.mp hcle3
            have hwq : lg r.prob + wx + wy = q := by
              have : s = ((lg r.prob + wx + wy : W) : WithBot W) := by
                rw [hs, hwx, hwy, ← WithBot.coe_add, ← WithBot.coe_add]
              rw [hsq] at this
              exact (WithBot.coe_inj.mp this).symm
            rw [hweq, hwq]
            calc lg r2.prob + wx2 + wy2 ≤ lg r2.prob + wxm + wym :=
                  add_le_add (add_le_add (le_refl _) hwx2le) hwy2le
              _ ≤ q := hle
        · rw [if_neg hmem] at hlook
          exact Option.noConfusion hlook

theorem mem_spanList (n : Nat) (sp : Nat × Nat) :
    sp ∈ spanList n ↔ sp.1 < sp.2 ∧ sp.2 ≤ n := by
  obtain ⟨i, j⟩ := sp
  unfold spanList
  simp only [List.mem_append, List.mem_map, List.mem_range, List.mem_flatMap,
    List.mem_range'_1]
  constructor
  · rintro (⟨i2, hi2, heq⟩ | ⟨l, ⟨hl1, hl2⟩, i2, hi2, heq⟩)
    · injection heq with h1 h2
      subst h1
      subst h2
      exact ⟨by omega, by omega⟩
    · injection heq with h1 h2
      subst h1
      subst h2
      exact ⟨by omega, by omega⟩
  · rintro ⟨hij, hjn⟩
    by_cases hb : j = i + 1
    · exact Or.inl ⟨i, by omega, by rw [hb]⟩
    · refine Or.inr ⟨j - i, ⟨by omega, by omega⟩, i, by omega, ?_⟩
      have : i + (j - i) = j := by omega
      rw [this]

theorem find?_map_self {α β : Type} [DecidableEq α] (l : List α) (f : α → β)
    (a : α) (ha : a ∈ l) :
    (l.map (fun x => (x, f x))).find? (fun e => decide (e.1 = a)) =
      some (a, f a) := by
  induction l with
  | nil => simp at ha
  | cons x rest ih =>
      simp only [List.map_cons]
      by_cases hx : x = a
      · subst hx
        exact List.find?_cons_of_pos _ (by simp)
      · rw [List.find?_cons_of_neg _ (by simp [hx])]
        rcases List.mem_cons.mp ha with h | h
        · exact absurd h.symm hx
        · exact ih h

theorem find?_map_self_none {α β : Type} [DecidableEq α] (l : List α) (f : α → β)
    (a : α) (ha : a ∉ l) :
    (l.map (fun x => (x, f x))).find? (fun e => decide (e.1 = a)) = none := by
  rw [List.find?_eq_none]
  rintro ⟨x, fx⟩ hmem
  rcases List.mem_map.mp hmem with ⟨x2, hx2, heq⟩
  injection heq with h1 h2
  subst h1
  intro hdec
  exact ha (of_decide_eq_true hdec ▸ hx2)

theorem alookup_map_val {α β : Type} (f : α → β) (c : List (String × α))
    (l : String) :
    alookup (c.map (fun e => (e.1, f e.2))) l = (alookup c l).map f := by
  induction c with
  | nil => rfl
  | cons e rest ih =>
      simp only [List.map_cons, alookup_cons]
      by_cases he : e.1 = l
      · rw [if_pos he, if_pos he]
        rfl
      · rw [if_neg he, if_neg he, ih]

theorem clookup_parse_pb {W : Type} [LinearOrderedAddCommMonoid W]
    (lg : Frac → W) (g : Pcfg) (toks : List String) (sp : Nat × Nat)
    (l : String) :
    clookup (CkyParser.parse_with_backpointers lg g toks).2 sp l =
      if sp.1 < sp.2 ∧ sp.2 ≤ toks.length
      then (alookup (cellAt lg g toks sp.1 sp.2) l).map Prod.fst
      else none := by
  unfold CkyParser.parse_with_backpointers clookup
  by_cases hv : sp.1 < sp.2 ∧ sp.2 ≤ toks.length
  · rw [if_pos hv,
      find?_map_self (spanList toks.length)
        (fun sp => (cellAt lg g toks sp.1 sp.2).map (fun e => (e.1, e.2.1)))
        sp ((mem_spanList _ _).mpr hv)]
    exact alookup_map_val Prod.fst (cellAt lg g toks sp.1 sp.2) l
  · rw [if_neg hv,
      find?_map_self_none (spanList toks.length)
        (fun sp => (cellAt lg g toks sp.1 sp.2).map (fun e => (e.1, e.2.1)))
        sp (fun hmem => hv ((mem_spanList _ _).mp hmem))]

theorem clookup_parse_tb {W : Type} [LinearOrderedAddCommMonoid W]
    (lg : Frac → W) (g : Pcfg) (toks : List String) (sp : Nat × Nat)
    (l : String) :
    clookup (CkyParser.parse_with_backpointers lg g toks).1 sp l =
      if sp.1 < sp.2 ∧ sp.2 ≤ toks.length
      then (alookup (cellAt lg g toks sp.1 sp.2) l).map Prod.snd
      else none := by
  unfold CkyParser.parse_with_backpointers clookup
  by_cases hv : sp.1 < sp.2 ∧ sp.2 ≤ toks.length
  · rw [if_pos hv,
      find?_map_self (spanList toks.length)
        (fun sp => (cellAt lg g toks sp.1 sp.2).map (fun e => (e.1, e.2.2)))
        sp ((mem_spanList _ _).mpr hv)]
    exact alookup_map_val Prod.snd (cellAt lg g toks sp.1 sp.2) l
  · rw [if_neg hv,
      find?_map_self_none (spanList toks.length)
        (fun sp => (cellAt lg g toks sp.1 sp.2).map (fun e => (e.1, e.2.2)))
        sp (fun hmem => hv ((mem_spanList _ _).mp hmem))]

/-- C3: for every grammar and every token sequence (empty included),
`is_in_language` returns `True` exactly when the probability chart
returned by `parse_with_backpointers` has, in its root cell for span
`(0, n)`, an entry for the start symbol with a finite score.  On the
empty sequence both sides are false: `is_in_language` raises (`none`,
so it does not return `True`) and the root chart has no span keys.
Grammar validation is not needed for the equivalence. -/
theorem C3_membership_iff_finite_root {W : Type} [LinearOrderedAddCommMonoid W]
    (lg : Frac → W) (g : Pcfg) (toks : List String) :
    CkyParser.is_in_language g toks = some true ↔
      ∃ q : W, clookup (CkyParser.parse_with_backpointers lg g toks).2
        (0, toks.length) g.startsymbol = some ((q : W) : WithBot W) := by
  rw [clookup_parse_pb]
  by_cases h0 : toks.length = 0
  · rw [if_neg (by omega)]
    unfold CkyParser.is_in_language
    rw [if_pos h0]
    constructor
    · intro h; exact Option.noConfusion h
    · rintro ⟨q, hq⟩; exact Option.noConfusion hq
  · have hn : 0 < toks.length := Nat.pos_of_ne_zero h0
    rw [if_pos ⟨hn, le_refl _⟩]
    unfold CkyParser.is_in_language
    rw [if_neg h0]
    constructor
    · intro h
      have hmem : g.startsymbol ∈ piAt g toks 0 toks.length :=
        of_decide_eq_true (Option.some.inj h)
      have hD : Derives g g.startsymbol toks := by
        have := (mem_piAt_iff g toks (toks.length - 0) 0 toks.length
          g.startsymbol rfl hn (le_refl _)).mp hmem
        rwa [tokSlice_all] at this
      have hkey : g.startsymbol ∈ akeys (cellAt lg g toks 0 toks.length) := by
        apply (mem_akeys_cellAt_iff lg g toks (toks.length - 0) 0 toks.length _
          rfl hn (le_refl _)).mpr
        rwa [tokSlice_all]
      rcases (mem_akeys_iff_lookup _ _).mp hkey with ⟨v, hv⟩
      rcases (cellAt_values lg g toks (toks.length - 0) 0 toks.length _ v.1 v.2
        rfl hn (le_refl _) hv).1 with ⟨q, hq, _⟩
      refine ⟨q, ?_⟩
      rw [hv]
      show some v.1 = some ((q : W) : WithBot W)
      rw [hq]
    · rintro ⟨q, hq⟩
      cases hv : alookup (cellAt lg g toks 0 toks.length) g.startsymbol with
      | none => rw [hv] at hq; exact Option.noConfusion hq
      | some v =>
          have hkey : g.startsymbol ∈ akeys (cellAt lg g toks 0 toks.length) :=
            (mem_akeys_iff_lookup _ _).mpr ⟨v, hv⟩
          have hD := (mem_akeys_cellAt_iff lg g toks (toks.length - 0) 0
            toks.length _ rfl hn (le_refl _)).mp hkey
          rw [tokSlice_all] at hD
          have hmem := (mem_piAt_iff g toks (toks.length - 0) 0 toks.length
            g.startsymbol rfl hn (le_refl _)).mpr (by rwa [tokSlice_all])
          exact congrArg some (decide_eq_true hmem)

theorem filter_rhs_map_lhs_eq (L1 L2 : List Rule)
    (h : L1.map (fun r => (r.lhs, r.rhs)) = L2.map (fun r => (r.lhs, r.rhs))) :
    ∀ w : List String,
      (L1.filter (fun r => r.rhs = w)).map (fun r => r.lhs) =
        (L2.filter (fun r => r.rhs = w)).map (fun r => r.lhs) := by
  induction L1 generalizing L2 with
  | nil =>
      intro w
      have h2 : L2 = [] := by
        cases L2 with
        | nil => rfl
        | cons r2 t2 => simp at h
      rw [h2]
  | cons r1 t1 ih =>
      intro w
      cases L2 with
      | nil => simp at h
      | cons r2 t2 =>
          simp only [List.map_cons, List.cons.injEq, Prod.mk.injEq] at h
          obtain ⟨⟨hlhs, hrhs⟩, htail⟩ := h
          by_cases hw : r1.rhs = w
          · rw [List.filter_cons_of_pos (by simp [hw]),
              List.filter_cons_of_pos (by simp [← hrhs, hw]),
              List.map_cons, List.map_cons, hlhs, ih t2 htail w]
          · rw [List.filter_cons_of_neg (by simp [hw]),
              List.filter_cons_of_neg (by simp [← hrhs, hw]),
              ih t2 htail w]

theorem piF_shape_eq (g g2 : Pcfg) (toks : List String)
    (hshape : g2.rules.map (fun r => (r.lhs, r.rhs)) =
      g.rules.map (fun r => (r.lhs, r.rhs))) :
    ∀ (fuel : Nat) (sp : Nat × Nat), piF g2 toks fuel sp = piF g toks fuel sp := by
  intro fuel
  induction fuel with
  | zero => intro sp; rfl
  | succ fuel ih =>
      intro sp
      obtain ⟨i, j⟩ := sp
      rw [piF_succ, piF_succ]
      by_cases hb : j = i + 1
      · rw [if_pos hb, if_pos hb]
        cases toks.get? i with
        | some t =>
            show initLhs g2 t = initLhs g t
            unfold initLhs Pcfg.rhs_to_rules
            exact filter_rhs_map_lhs_eq g2.rules g.rules hshape [t]
        | none => rfl
      · rw [if_neg hb, if_neg hb]
        by_cases hc : i + 2 ≤ j ∧ j ≤ toks.length
        · rw [if_pos hc, if_pos hc]
          apply foldl_congr_fn
          intro acc k hk
          rw [ih (i, k), ih (k, j)]
          congr 1
          apply flatMap_congr
          intro b hb2
          apply flatMap_congr
          intro c hc2
          show ((g2.rhs_to_rules [b, c]).map fun r => r.lhs) = _
          unfold Pcfg.rhs_to_rules
          exact filter_rhs_map_lhs_eq g2.rules g.rules hshape [b, c]
        · rw [if_neg hc, if_neg hc]

/-- C2: on non-empty token sequences, `is_in_language` returns `True`
exactly when the start symbol derives the sequence under the grammar's
rules, and the result is unchanged for any grammar with the same rule
shapes (same lhs/rhs lists) and start symbol, regardless of its rule
probabilities. -/
theorem C2_is_in_language_iff_derivable (g : Pcfg) (toks : List String)
    (hne : toks ≠ []) :
    (CkyParser.is_in_language g toks = some true ↔
      Derives g g.startsymbol toks) ∧
    ∀ g2 : Pcfg,
      g2.rules.map (fun r => (r.lhs, r.rhs)) =
        g.rules.map (fun r => (r.lhs, r.rhs)) →
      g2.startsymbol = g.startsymbol →
      CkyParser.is_in_language g2 toks = CkyParser.is_in_language g toks := by
  have h0 : toks.length ≠ 0 := fun h => hne (List.length_eq_zero.mp h)
  have hn : 0 < toks.length := Nat.pos_of_ne_zero h0
  constructor
  · unfold CkyParser.is_in_language
    rw [if_neg h0]
    constructor
    · intro h
      have hmem : g.startsymbol ∈ piAt g toks 0 toks.length :=
        of_decide_eq_true (Option.some.inj h)
      have := (mem_piAt_iff g toks (toks.length - 0) 0 toks.length
        g.startsymbol rfl hn (le_refl _)).mp hmem
      rwa [tokSlice_all] at this
    · intro hD
      have hmem := (mem_piAt_iff g toks (toks.length - 0) 0 toks.length
        g.startsymbol rfl hn (le_refl _)).mpr (by rwa [tokSlice_all])
      exact congrArg some (decide_eq_true hmem)
  · intro g2 hshape hstart
    unfold CkyParser.is_in_language
    rw [if_neg h0, if_neg h0]
    unfold piAt
    rw [piF_shape_eq g g2 toks hshape (toks.length - 0) (0, toks.length), hstart]

/-- Witness for C2 at a concrete grammar and sentence. -/
theorem C2_is_in_language_iff_derivable_witness :
    (CkyParser.is_in_language gGood ["dogs", "bark"] = some true ↔
      Derives gGood gGood.startsymbol ["dogs", "bark"]) ∧
    ∀ g2 : Pcfg,
      g2.rules.map (fun r => (r.lhs, r.rhs)) =
        gGood.rules.map (fun r => (r.lhs, r.rhs)) →
      g2.startsymbol = gGood.startsymbol →
      CkyParser.is_in_language g2 ["dogs", "bark"] =
        CkyParser.is_in_language gGood ["dogs", "bark"] :=
  C2_is_in_language_iff_derivable gGood ["dogs", "bark"] (by decide)

/-- C1 (amended): for every grammar and token sequence, provided that any
two unary-terminal rules with the same lhs and the same terminal have
equal log2-probabilities, every score stored in the probability chart
returned by `parse_with_backpointers` for a span `(i,j)` and nonterminal
`A` is the maximum over all CNF derivations of `A` spanning `tokens[i:j]`
of the sum of the log2-probabilities of the rules used.  (Validation of
the grammar is not needed; without the duplicate-rule proviso the claim
fails, see the counterexample.) -/
theorem C1_probability_chart_optimal {W : Type} [LinearOrderedAddCommMonoid W]
    (lg : Frac → W) (g : Pcfg) (toks : List String) (i j : Nat) (A : String)
    (s : WithBot W)
    (hdup : ∀ r ∈ g.rules, ∀ r2 ∈ g.rules, r.lhs = r2.lhs → r.rhs = r2.rhs →
      r.rhs.length = 1 → lg r.prob = lg r2.prob)
    (hs : clookup (CkyParser.parse_with_backpointers lg g toks).2 (i, j) A =
      some s) :
    ∃ w : W, s = (w : WithBot W) ∧
      IsGreatest {w2 : W | DerivW lg g A (tokSlice toks i j) w2} w := by
  rw [clookup_parse_pb] at hs
  by_cases hv : i < j ∧ j ≤ toks.length
  · rw [if_pos hv] at hs
    cases hlook : alookup (cellAt lg g toks i j) A with
    | none => rw [hlook] at hs; exact Option.noConfusion hs
    | some v =>
        rw [hlook] at hs
        have hv1 : v.1 = s := Option.some.inj hs
        rcases cellAt_best lg g toks hdup (j - i) i j A v.1 v.2 rfl hv.1 hv.2
          hlook with ⟨w, hw, hbest⟩
        exact ⟨w, hv1 ▸ hw, hbest⟩
  · rw [if_neg hv] at hs
    exact Option.noConfusion hs

/-- A grammar passing validation, with two unary rules `A -> "a"` of
probabilities 0.7 and 0.3 (summing to 1). -/
def gDup : Pcfg :=
  { rules := [{ lhs := "A", rhs := ["a"], prob := ⟨7, 10⟩ },
              { lhs := "A", rhs := ["a"], prob := ⟨3, 10⟩ }],
    startsymbol := "S" }

/-- A concrete stand-in for `log2` used by the counterexample: any
function with `lgNum (7/10) > lgNum (3/10)` (as `log2` has, being
strictly monotone) exhibits the failure. -/
def lgNum (q : Frac) : ℤ := q.num - q.den

/-- C1 counterexample: with the validated grammar `gDup`, the base case
of `parse_with_backpointers` writes both `(A, 0.7)` and `(A, 0.3)` into
the length-1 cell, last write winning (the Python code iterates a set of
pairs, so either order can occur; the model iterates in file order).  The
stored score is the weight of the 0.3 rule, not the maximum (the weight
of the 0.7 rule), refuting the claim as stated. -/
theorem C1_counterexample :
    Pcfg.verify_grammar gDup = "confirmation!" ∧
    clookup (CkyParser.parse_with_backpointers lgNum gDup ["a"]).2 (0, 1) "A" =
      some (((-7 : ℤ) : WithBot ℤ)) ∧
    ¬ ∃ w : ℤ, ((-7 : ℤ) : WithBot ℤ) = (w : WithBot ℤ) ∧
      IsGreatest {w2 : ℤ | DerivW lgNum gDup "A" (tokSlice ["a"] 0 1) w2} w := by
  refine ⟨by decide, by decide, ?_⟩
  rintro ⟨w, hw, hmem, hub⟩
  have hw7 : w = -7 := by
    have := WithBot.coe_inj.mp hw
    omega
  have hd : DerivW lgNum gDup "A" (tokSlice ["a"] 0 1) (lgNum ⟨7, 10⟩) := by
    have hsl : tokSlice ["a"] 0 1 = ["a"] := rfl
    rw [hsl]
    exact DerivW.unary ⟨"A", ["a"], ⟨7, 10⟩⟩ (by simp [gDup]) "a" rfl
  have hle := hub hd
  rw [hw7] at hle
  have : (-3 : ℤ) ≤ -7 := hle
  omega

/-- Witness for the amended C1 at a concrete grammar and sentence. -/
theorem C1_probability_chart_optimal_witness :
    (∀ r ∈ gGood.rules, ∀ r2 ∈ gGood.rules, r.lhs = r2.lhs → r.rhs = r2.rhs →
      r.rhs.length = 1 → lgNum r.prob = lgNum r2.prob) ∧
    clookup (CkyParser.parse_with_backpointers lgNum gGood ["dogs", "bark"]).2
      (0, 2) "S" = some (((0 : ℤ) : WithBot ℤ)) ∧
    ∃ w : ℤ, (((0 : ℤ) : WithBot ℤ)) = (w : WithBot ℤ) ∧
      IsGreatest {w2 : ℤ | DerivW lgNum gGood "S" (tokSlice ["dogs", "bark"] 0 2) w2} w :=
  ⟨by decide, by decide,
    C1_probability_chart_optimal lgNum gGood ["dogs", "bark"] 0 2 "S"
      (((0 : ℤ) : WithBot ℤ)) (by decide) (by decide)⟩

/-- C5: in the inductive step, a candidate replaces the stored entry only
on a strictly greater score (`if prob > pb[(i,j)][l]`), so the stored
score is the maximum of all candidate scores and the stored backpointer is
the one carried by the first candidate, in enumeration order (increasing
split point `k`, then the insertion order of the keys of `pb[(i,k)]` and
`pb[(k,j)]`, then rule-list order — which is exactly the order of
`candsFor`), whose score equals that maximum: `find?` returns the first
match. -/
theorem C5_first_max_backpointer {W : Type} [LinearOrderedAddCommMonoid W]
    (lg : Frac → W) (g : Pcfg) (toks : List String) (i j : Nat) (l : String)
    (s : WithBot W) (h2 : i + 2 ≤ j) (hn : j ≤ toks.length)
    (hs : clookup (CkyParser.parse_with_backpointers lg g toks).2 (i, j) l =
      some s) :
    ∃ bp : BP,
      clookup (CkyParser.parse_with_backpointers lg g toks).1 (i, j) l =
        some bp ∧
      (candsFor lg g (fun sp => cellAt lg g toks sp.1 sp.2) i j l).find?
        (fun e => decide (e.1 = s)) = some (s, bp) ∧
      ∀ e ∈ candsFor lg g (fun sp => cellAt lg g toks sp.1 sp.2) i j l,
        e.1 ≤ s := by
  have hij : i < j := by omega
  rw [clookup_parse_pb, if_pos ⟨hij, hn⟩] at hs
  cases hlook : alookup (cellAt lg g toks i j) l with
  | none => rw [hlook] at hs; exact Option.noConfusion hs
  | some v =>
      rw [hlook] at hs
      have hv1 : v.1 = s := Option.some.inj hs
      subst hv1
      have htb : clookup (CkyParser.parse_with_backpointers lg g toks).1 (i, j)
          l = some v.2 := by
        rw [clookup_parse_tb, if_pos ⟨hij, hn⟩, hlook]
        rfl
      have hfin := (cellAt_values lg g toks (j - i) i j l v.1 v.2 rfl hij hn
        hlook).1
      have hlook2 := hlook
      rw [cellAt_step lg g toks i j h2 hn, alookup_buildCell] at hlook2
      by_cases hmem : l ∈ (candList lg g
          (fun sp => cellAt lg g toks sp.1 sp.2) i j).map Prod.fst
      · rw [if_pos hmem] at hlook2
        set csl := candsFor lg g (fun sp => cellAt lg g toks sp.1 sp.2) i j l
          with hcsl
        have hres : csl.foldl upd1 ((⊥ : WithBot W), BP.sent) = (v.1, v.2) :=
          Option.some.inj hlook2
        have hub : ∀ e ∈ csl, e.1 ≤ v.1 := by
          intro e he
          have h1 : (csl.foldl upd1 ((⊥ : WithBot W), BP.sent)).1 =
              csl.foldl (fun a e => max a e.1) (⊥ : WithBot W) :=
            foldl_upd1_fst csl _
          have h3 := foldl_max_mem_le csl (⊥ : WithBot W) e he
          rw [← h1, hres] at h3
          exact h3
        refine ⟨v.2, htb, ?_, hub⟩
        rcases foldl_upd1_cases csl ((⊥ : WithBot W), BP.sent) with
          ⟨hr0, _⟩ | ⟨_, hfind⟩
        · exfalso
          rcases hfin with ⟨q, hq, _⟩
          rw [hres] at hr0
          have hsb : v.1 = ⊥ := congrArg Prod.fst hr0
          rw [hq] at hsb
          exact Option.noConfusion hsb
        · rw [hres] at hfind
          exact hfind
      · rw [if_neg hmem] at hlook2
        exact Option.noConfusion hlook2

/-- Witness for C5 at a concrete grammar and sentence: the single
candidate for `S` over span `(0,2)` is found first. -/
theorem C5_first_max_backpointer_witness :
    (0 + 2 ≤ 2 ∧ 2 ≤ (["dogs", "bark"] : List String).length) ∧
    clookup (CkyParser.parse_with_backpointers lgNum gGood ["dogs", "bark"]).2
      (0, 2) "S" = some (((0 : ℤ) : WithBot ℤ)) ∧
    ∃ bp : BP,
      clookup (CkyParser.parse_with_backpointers lgNum gGood
        ["dogs", "bark"]).1 (0, 2) "S" = some bp ∧
      (candsFor lgNum gGood
        (fun sp => cellAt lgNum gGood ["dogs", "bark"] sp.1 sp.2) 0 2 "S").find?
        (fun e => decide (e.1 = ((0 : ℤ) : WithBot ℤ))) =
        some (((0 : ℤ) : WithBot ℤ), bp) ∧
      ∀ e ∈ candsFor lgNum gGood
        (fun sp => cellAt lgNum gGood ["dogs", "bark"] sp.1 sp.2) 0 2 "S",
        e.1 ≤ ((0 : ℤ) : WithBot ℤ) :=
  ⟨⟨by omega, by decide⟩, by decide,
    C5_first_max_backpointer lgNum gGood ["dogs", "bark"] 0 2 "S"
      (((0 : ℤ) : WithBot ℤ)) (by omega) (by decide) (by decide)⟩

theorem get_tree_zero (chart : List ((Nat × Nat) × List (String × BP)))
    (i j : Nat) (nt : String) : get_tree 0 chart i j nt = none := rfl

theorem get_tree_succ (f : Nat) (chart : List ((Nat × Nat) × List (String × BP)))
    (i j : Nat) (nt : String) :
    get_tree (f + 1) chart i j nt =
      match clookup chart (i, j) nt with
      | some (BP.leaf t) => some (.leaf nt t)
      | some (BP.split b1 b2) =>
          match get_tree f chart i b1.2.2 b1.1, get_tree f chart b1.2.2 j b2.1 with
          | some t1, some t2 => some (.node nt t1 t2)
          | _, _ => none
      | some BP.sent => none
      | none => none := rfl

theorem get_tree_spec {W : Type} [LinearOrderedAddCommMonoid W]
    (lg : Frac → W) (g : Pcfg) (toks : List String) :
    ∀ (d i j : Nat) (l : String) (v : WithBot W × BP) (fuel : Nat),
      j - i = d → i < j → j ≤ toks.length → d ≤ fuel →
      alookup (cellAt lg g toks i j) l = some v →
      ∃ t : PTree,
        get_tree fuel (CkyParser.parse_with_backpointers lg g toks).1 i j l =
          some t ∧ t.leaves = tokSlice toks i j := by
  intro d
  induction d using Nat.strong_induction_on with
  | _ d ih =>
      intro i j l v fuel hd hij hn hfuel hlook
      have hf0 : fuel ≠ 0 := by omega
      obtain ⟨f, rfl⟩ := Nat.exists_eq_succ_of_ne_zero hf0
      have htb : clookup (CkyParser.parse_with_backpointers lg g toks).1 (i, j)
          l = some v.2 := by
        rw [clookup_parse_tb, if_pos ⟨hij, hn⟩, hlook]
        rfl
      have hvals := cellAt_values lg g toks d i j l v.1 v.2 hd hij hn hlook
      by_cases hb : j = i + 1
      · rcases hvals.2.1 hb with ⟨hi, hbp, _⟩
        refine ⟨PTree.leaf l toks[i], ?_, ?_⟩
        · rw [get_tree_succ, htb, hbp]
        · subst hb
          rw [tokSlice_singleton hi]
          rfl
      · have h2 : i + 2 ≤ j := by omega
        rcases hvals.2.2 h2 with ⟨x, k, y, hbp, hik, hkj, hxkey, hykey⟩
        rcases (mem_akeys_iff_lookup _ _).mp hxkey with ⟨vx, hvx⟩
        rcases (mem_akeys_iff_lookup _ _).mp hykey with ⟨vy, hvy⟩
        rcases ih (k - i) (by omega) i k x vx f rfl hik (by omega) (by omega)
          hvx with ⟨t1, ht1, hl1⟩
        rcases ih (j - k) (by omega) k j y vy f rfl hkj hn (by omega)
          hvy with ⟨t2, ht2, hl2⟩
        refine ⟨PTree.node l t1 t2, ?_, ?_⟩
        · rw [get_tree_succ, htb, hbp]
          show (match get_tree f (CkyParser.parse_with_backpointers lg g toks).1
              i k x, get_tree f (CkyParser.parse_with_backpointers lg g toks).1
              k j y with
            | some t1, some t2 => some (PTree.node l t1 t2)
            | _, _ => none) = some (PTree.node l t1 t2)
          rw [ht1, ht2]
        · show t1.leaves ++ t2.leaves = tokSlice toks i j
          rw [hl1, hl2, tokSlice_append (le_of_lt hik) (le_of_lt hkj)]

/-- C4: whenever the root cell of the backpointer chart contains the start
symbol, `get_tree` reconstructs a tree whose left-to-right leaf sequence
is exactly the original token sequence. -/
theorem C4_get_tree_leaves {W : Type} [LinearOrderedAddCommMonoid W]
    (lg : Frac → W) (g : Pcfg) (toks : List String) (bp : BP)
    (hne : toks ≠ [])
    (hroot : clookup (CkyParser.parse_with_backpointers lg g toks).1
      (0, toks.length) g.startsymbol = some bp) :
    ∃ t : PTree,
      get_tree toks.length (CkyParser.parse_with_backpointers lg g toks).1 0
        toks.length g.startsymbol = some t ∧ t.leaves = toks := by
  have hn : 0 < toks.length :=
    Nat.pos_of_ne_zero (fun h => hne (List.length_eq_zero.mp h))
  rw [clookup_parse_tb, if_pos ⟨hn, le_refl _⟩] at hroot
  cases hlook : alookup (cellAt lg g toks 0 toks.length) g.startsymbol with
  | none => rw [hlook] at hroot; exact Option.noConfusion hroot
  | some v =>
      rcases get_tree_spec lg g toks (toks.length - 0) 0 toks.length
        g.startsymbol v toks.length rfl hn (le_refl _) (by omega) hlook with
        ⟨t, ht, hl⟩
      rw [tokSlice_all] at hl
      exact ⟨t, ht, hl⟩

/-- Witness for C4 at a concrete grammar and sentence. -/
theorem C4_get_tree_leaves_witness :
    ((["dogs", "bark"] : List String) ≠ []) ∧
    clookup (CkyParser.parse_with_backpointers lgNum gGood ["dogs", "bark"]).1
      (0, 2) "S" = some (BP.split ("NP", 0, 1) ("VP", 1, 2)) ∧
    ∃ t : PTree,
      get_tree 2 (CkyParser.parse_with_backpointers lgNum gGood
        ["dogs", "bark"]).1 0 2 "S" = some t ∧ t.leaves = ["dogs", "bark"] :=
  ⟨by decide, by decide,
    C4_get_tree_leaves lgNum gGood ["dogs", "bark"]
      (BP.split ("NP", 0, 1) ("VP", 1, 2)) (by decide) (by decide)⟩

/-- C8: for a grammar whose rule probabilities lie in `(0, 1]` (so their
log2 values are nonpositive — stated explicitly of `lg`), every score in
the returned probability chart is finite and nonpositive (the `-inf`
initialisation never survives) and no backpointer in the returned chart
is the sentinel `((0,0,0),(0,0,0))`. -/
theorem C8_no_sentinel_survives {W : Type} [LinearOrderedAddCommMonoid W]
    (lg : Frac → W) (g : Pcfg) (toks : List String)
    (hp : ∀ r ∈ g.rules, 0 < r.prob.num ∧ r.prob.num ≤ r.prob.den)
    (hlg : ∀ q : Frac, 0 < q.num → q.num ≤ q.den → lg q ≤ 0)
    (sp : Nat × Nat) (l : String) :
    (∀ s : WithBot W,
      clookup (CkyParser.parse_with_backpointers lg g toks).2 sp l = some s →
      ∃ q : W, s = (q : WithBot W) ∧ q ≤ 0) ∧
    (∀ bp : BP,
      clookup (CkyParser.parse_with_backpointers lg g toks).1 sp l = some bp →
      bp ≠ BP.sent) := by
  have hle : ∀ r ∈ g.rules, lg r.prob ≤ 0 :=
    fun r hr => hlg r.prob (hp r hr).1 (hp r hr).2
  constructor
  · intro s hs
    rw [clookup_parse_pb] at hs
    by_cases hv : sp.1 < sp.2 ∧ sp.2 ≤ toks.length
    · rw [if_pos hv] at hs
      cases hlook : alookup (cellAt lg g toks sp.1 sp.2) l with
      | none => rw [hlook] at hs; exact Option.noConfusion hs
      | some v =>
          rw [hlook] at hs
          have hv1 : v.1 = s := Option.some.inj hs
          rcases (cellAt_values lg g toks (sp.2 - sp.1) sp.1 sp.2 l v.1 v.2 rfl
            hv.1 hv.2 hlook).1 with ⟨q, hq, hq0⟩
          exact ⟨q, hv1 ▸ hq, hq0 hle⟩
    · rw [if_neg hv] at hs
      exact Option.noConfusion hs
  · intro bp hbp
    rw [clookup_parse_tb] at hbp
    by_cases hv : sp.1 < sp.2 ∧ sp.2 ≤ toks.length
    · rw [if_pos hv] at hbp
      cases hlook : alookup (cellAt lg g toks sp.1 sp.2) l with
      | none => rw [hlook] at hbp; exact Option.noConfusion hbp
      | some v =>
          rw [hlook] at hbp
          have hv2 : v.2 = bp := Option.some.inj hbp
          have hvals := cellAt_values lg g toks (sp.2 - sp.1) sp.1 sp.2 l v.1
            v.2 rfl hv.1 hv.2 hlook
          by_cases hb : sp.2 = sp.1 + 1
          · rcases hvals.2.1 hb with ⟨_, hleaf, _⟩
            rw [← hv2, hleaf]
            intro hcon
            exact BP.noConfusion hcon
          · have h2 : sp.1 + 2 ≤ sp.2 := by omega
            rcases hvals.2.2 h2 with ⟨x, k, y, hsplit, _⟩
            rw [← hv2, hsplit]
            intro hcon
            exact BP.noConfusion hcon
    · rw [if_neg hv] at hbp
      exact Option.noConfusion hbp

/-- Witness for C8 at a concrete grammar, sentence, span and nonterminal. -/
theorem C8_no_sentinel_survives_witness :
    (∀ r ∈ gGood.rules, 0 < r.prob.num ∧ r.prob.num ≤ r.prob.den) ∧
    (∃ q : ℤ, (((0 : ℤ) : WithBot ℤ)) = (q : WithBot ℤ) ∧ q ≤ 0) ∧
    ∀ bp : BP,
      clookup (CkyParser.parse_with_backpointers (fun _ => (0 : ℤ)) gGood
        ["dogs", "bark"]).1 (0, 2) "S" = some bp → bp ≠ BP.sent :=
  ⟨by decide,
    (C8_no_sentinel_survives (fun _ => (0 : ℤ)) gGood ["dogs", "bark"]
      (by decide) (fun q h1 h2 => le_refl 0) (0, 2) "S").1
      (((0 : ℤ) : WithBot ℤ)) (by decide),
    (C8_no_sentinel_survives (fun _ => (0 : ℤ)) gGood ["dogs", "bark"]
      (by decide) (fun q h1 h2 => le_refl 0) (0, 2) "S").2⟩
